import Mathlib

/-!
Verification of the Pix2Poly decode-and-assemble pipeline (src/utils.py).

List-based shallow embedding: a matrix is a `List (List ℚ)` (row-major), a
batch of matrices is a `List (List (List ℚ))`.  Machine floats are modelled
by rationals; every definition below is translated from the corresponding
Python in src/utils.py, except where a doc comment starts with
`Modelled from the spec:` (code external to src/, modelled from its
documented contract).
-/

namespace Pix2Poly

/-- Matrix entry access with numpy-style defaults (out-of-range reads 0). -/
def ent (m : List (List ℚ)) (i j : ℕ) : ℚ := (m.getD i []).getD j 0

/-! ## Assignment Solver: `scores_to_permutations` (src/utils.py lines 96-108)

The Python body is
  B, N, N = scores.shape            -- tuple unpacking, no squareness check
  perm = np.zeros_like(scores)
  for b in range(B):
      r, c = linear_sum_assignment(-scores[b])
      perm[b,r,c] = 1
  return torch.tensor(perm)
-/

/-- Modelled from the spec: `scipy.optimize.linear_sum_assignment` is external
library code (not in src/).  Its documented contract: given an `r × c` cost
matrix it returns index pairs describing an assignment of the smaller
dimension that minimizes the summed cost; for a square matrix this is an
optimal bijection.  We model the candidate assignments exhaustively: for
`r ≤ c` every way to give each row a distinct column, otherwise every way to
give each column a distinct row. -/
def lsa_candidates (r c : ℕ) : List (List (ℕ × ℕ)) :=
  if r ≤ c then (List.range c).permutations'.map (fun p => (List.range r).zip p)
  else (List.range r).permutations'.map (fun p => p.zip (List.range c))

/-- Total cost of an assignment (sum of the chosen entries). -/
def assignment_cost (cost : List (List ℚ)) (a : List (ℕ × ℕ)) : ℚ :=
  (a.map (fun ij => ent cost ij.1 ij.2)).sum

/-- Fold that keeps the first candidate of minimal cost. -/
def pick_min (cost : List (List ℚ)) : List (List (ℕ × ℕ)) → List (ℕ × ℕ) → List (ℕ × ℕ)
  | [], best => best
  | a :: rest, best =>
      pick_min cost rest (if assignment_cost cost a < assignment_cost cost best then a else best)

/-- Modelled from the spec: `scipy.optimize.linear_sum_assignment` (see
`lsa_candidates`).  Returns a minimum-cost candidate assignment. -/
def linear_sum_assignment (cost : List (List ℚ)) : List (ℕ × ℕ) :=
  match lsa_candidates cost.length (cost.headD []).length with
  | [] => []
  | a :: rest => pick_min cost rest a

/-- `np.zeros_like(scores[b])`: a zero matrix of the same shape. -/
def zeros_like (m : List (List ℚ)) : List (List ℚ) :=
  m.map (fun row => row.map (fun _ => 0))

/-- Set entry `(i, j)` of a list matrix to `v`. -/
def set_entry (m : List (List ℚ)) (i j : ℕ) (v : ℚ) : List (List ℚ) :=
  m.set i ((m.getD i []).set j v)

/-- `perm[b, r, c] = 1`: numpy fancy-index assignment writing a 1 at every
returned index pair. -/
def apply_assignment (a : List (ℕ × ℕ)) (m : List (List ℚ)) : List (List ℚ) :=
  a.foldl (fun acc ij => set_entry acc ij.1 ij.2 1) m

/-- `-scores[b]`: entrywise negation (the Python negates before calling the
minimizing solver, so the solver maximizes the original scores). -/
def neg_mat (m : List (List ℚ)) : List (List ℚ) := m.map (fun row => row.map (fun x => -x))

/-- src/utils.py lines 96-108, `scores_to_permutations`: per-sample Hungarian
assignment on the negated scores, written into a zero matrix. -/
def scores_to_permutations (scores : List (List (List ℚ))) : List (List (List ℚ)) :=
  scores.map (fun s => apply_assignment (linear_sum_assignment (neg_mat s)) (zeros_like s))

/-- Total score collected by a bijection given as the list `p` of chosen
columns (row `i` is assigned column `p[i]`). -/
def assign_total (m : List (List ℚ)) (p : List ℕ) : ℚ :=
  (((List.range p.length).zip p).map (fun ij => ent m ij.1 ij.2)).sum

/-! ### Lemmas about the assignment solver -/

theorem pick_min_mem (cost : List (List ℚ)) :
    ∀ (l : List (List (ℕ × ℕ))) (best : List (ℕ × ℕ)),
      pick_min cost l best = best ∨ pick_min cost l best ∈ l := by
  intro l
  induction l with
  | nil => intro best; left; rfl
  | cons a rest ih =>
      intro best
      simp only [pick_min]
      rcases ih (if assignment_cost cost a < assignment_cost cost best then a else best) with h | h
      · rw [h]
        split
        · right; exact List.mem_cons_self _ _
        · left; rfl
      · right; exact List.mem_cons_of_mem _ h

theorem pick_min_le (cost : List (List ℚ)) :
    ∀ (l : List (List (ℕ × ℕ))) (best : List (ℕ × ℕ)),
      assignment_cost cost (pick_min cost l best) ≤ assignment_cost cost best ∧
      ∀ a ∈ l, assignment_cost cost (pick_min cost l best) ≤ assignment_cost cost a := by
  intro l
  induction l with
  | nil => intro best; exact ⟨le_refl _, by intro a ha; cases ha⟩
  | cons a rest ih =>
      intro best
      simp only [pick_min]
      rcases ih (if assignment_cost cost a < assignment_cost cost best then a else best) with ⟨h1, h2⟩
      constructor
      · refine le_trans h1 ?_
        split <;> rename_i hc
        · exact le_of_lt hc
        · exact le_refl _
      · intro x hx
        rcases List.mem_cons.mp hx with rfl | hx
        · refine le_trans h1 ?_
          split <;> rename_i hc
          · exact le_refl _
          · exact not_lt.mp hc
        · exact h2 x hx

theorem permutations_ne_nil (l : List ℕ) : l.permutations' ≠ [] := by
  intro h
  have hm : l ∈ l.permutations' := List.mem_permutations'.mpr (List.Perm.refl _)
  rw [h] at hm
  cases hm

theorem lsa_candidates_ne_nil (r c : ℕ) : lsa_candidates r c ≠ [] := by
  unfold lsa_candidates
  split
  · simp only [ne_eq, List.map_eq_nil_iff]; exact permutations_ne_nil _
  · simp only [ne_eq, List.map_eq_nil_iff]; exact permutations_ne_nil _

theorem linear_sum_assignment_spec (cost : List (List ℚ)) :
    linear_sum_assignment cost ∈ lsa_candidates cost.length (cost.headD []).length ∧
      ∀ a ∈ lsa_candidates cost.length (cost.headD []).length,
        assignment_cost cost (linear_sum_assignment cost) ≤ assignment_cost cost a := by
  unfold linear_sum_assignment
  cases h : lsa_candidates cost.length (cost.headD []).length with
  | nil => exact absurd h (lsa_candidates_ne_nil _ _)
  | cons a rest =>
      constructor
      · show pick_min cost rest a ∈ a :: rest
        rcases pick_min_mem cost rest a with h1 | h1
        · rw [h1]; exact List.mem_cons_self _ _
        · exact List.mem_cons_of_mem _ h1
      · intro b hb
        show assignment_cost cost (pick_min cost rest a) ≤ _
        rcases List.mem_cons.mp hb with rfl | hb
        · exact (pick_min_le cost rest b).1
        · exact (pick_min_le cost rest a).2 b hb

theorem mem_lsa_candidates_le {r c : ℕ} (hrc : r ≤ c) {a : List (ℕ × ℕ)} :
    a ∈ lsa_candidates r c ↔ ∃ p : List ℕ, p.Perm (List.range c) ∧ a = (List.range r).zip p := by
  unfold lsa_candidates
  rw [if_pos hrc]
  simp only [List.mem_map, List.mem_permutations']
  constructor
  · rintro ⟨p, hp, rfl⟩; exact ⟨p, hp, rfl⟩
  · rintro ⟨p, hp, rfl⟩; exact ⟨p, hp, rfl⟩

theorem mem_zip_range {r : ℕ} {p : List ℕ} (hp : r ≤ p.length) {i j : ℕ} :
    (i, j) ∈ (List.range r).zip p ↔ i < r ∧ p.getD i 0 = j := by
  constructor
  · intro h
    rcases List.mem_iff_getElem.mp h with ⟨k, hk, hkeq⟩
    have hklt : k < r := by
      have := hk
      rw [List.length_zip, List.length_range] at this
      exact lt_of_lt_of_le this (min_le_left _ _)
    have hkp : k < p.length := lt_of_lt_of_le hklt hp
    have hkr : k < (List.range r).length := by rwa [List.length_range]
    have hz : ((List.range r).zip p)[k] = ((List.range r)[k], p[k]) :=
      List.getElem_zip
    rw [hz] at hkeq
    simp only [List.getElem_range, Prod.mk.injEq] at hkeq
    rcases hkeq with ⟨rfl, rfl⟩
    exact ⟨hklt, List.getD_eq_getElem p 0 hkp⟩
  · rintro ⟨hi, rfl⟩
    have hip : i < p.length := lt_of_lt_of_le hi hp
    have hlen : i < ((List.range r).zip p).length := by
      rw [List.length_zip, List.length_range]; exact lt_min hi hip
    refine List.mem_iff_getElem.mpr ⟨i, hlen, ?_⟩
    have hir : i < (List.range r).length := by rwa [List.length_range]
    have hz : ((List.range r).zip p)[i] = ((List.range r)[i], p[i]) :=
      List.getElem_zip
    rw [hz, List.getD_eq_getElem p 0 hip]
    simp

/-! Shape and entry lemmas for the matrix helpers. -/

theorem getD_map_of_lt {α β : Type} (f : α → β) (l : List α) (d : α) {i : ℕ}
    (h : i < l.length) : ∀ dflt, (l.map f).getD i dflt = f (l.getD i d) := by
  intro dflt
  rw [List.getD_eq_getElem _ _ (by rwa [List.length_map]), List.getD_eq_getElem _ _ h]
  simp

theorem length_zeros_like (m : List (List ℚ)) : (zeros_like m).length = m.length :=
  List.length_map _ _

theorem zeros_like_row (m : List (List ℚ)) (i : ℕ) :
    (zeros_like m).getD i [] = (m.getD i []).map (fun _ => (0 : ℚ)) := by
  by_cases h : i < m.length
  · exact getD_map_of_lt _ m [] h []
  · rw [List.getD_eq_default _ _ (by rw [length_zeros_like]; omega),
      List.getD_eq_default _ _ (by omega)]
    rfl

theorem ent_zeros_like (m : List (List ℚ)) (i j : ℕ) : ent (zeros_like m) i j = 0 := by
  unfold ent
  rw [zeros_like_row]
  by_cases h : j < (m.getD i []).length
  · exact getD_map_of_lt _ _ 0 h 0
  · rw [List.getD_eq_default _ _ (by simp only [List.length_map]; omega)]

theorem length_set_entry (m : List (List ℚ)) (i j : ℕ) (v : ℚ) :
    (set_entry m i j v).length = m.length := by
  unfold set_entry; rw [List.length_set]

theorem row_set_entry (m : List (List ℚ)) (a b : ℕ) (v : ℚ) (i : ℕ) :
    (set_entry m a b v).getD i [] =
      if i = a ∧ a < m.length then (m.getD a []).set b v else m.getD i [] := by
  unfold set_entry
  by_cases ha : a < m.length
  · by_cases hia : i = a
    · subst hia
      rw [if_pos ⟨rfl, ha⟩]
      have hlen : i < (m.set i ((m.getD i []).set b v)).length := by
        rw [List.length_set]; exact ha
      rw [List.getD_eq_getElem _ _ hlen, List.getElem_set_self]
    · rw [if_neg (fun hc => hia hc.1)]
      by_cases hi : i < m.length
      · have h1 : i < (m.set a ((m.getD a []).set b v)).length := by
          rw [List.length_set]; exact hi
        rw [List.getD_eq_getElem _ _ h1, List.getD_eq_getElem _ _ hi,
          List.getElem_set_ne (fun hc => hia hc.symm)]
      · rw [List.getD_eq_default _ _ (by rw [List.length_set]; omega),
          List.getD_eq_default _ _ (by omega)]
  · rw [if_neg (fun hc => ha hc.2), List.set_eq_of_length_le (by omega)]

theorem length_row_set_entry (m : List (List ℚ)) (a b : ℕ) (v : ℚ) (i : ℕ) :
    ((set_entry m a b v).getD i []).length = ((m.getD i []).length) := by
  rw [row_set_entry]
  split <;> rename_i h
  · rw [List.length_set, h.1]
  · rfl

theorem ent_set_entry_self (m : List (List ℚ)) {a b : ℕ} (v : ℚ)
    (ha : a < m.length) (hb : b < (m.getD a []).length) :
    ent (set_entry m a b v) a b = v := by
  unfold ent
  rw [row_set_entry, if_pos ⟨rfl, ha⟩, List.getD_eq_getElem _ _ (by rwa [List.length_set]),
    List.getElem_set_self]

theorem ent_set_entry_ne (m : List (List ℚ)) {a b i j : ℕ} (v : ℚ)
    (h : ¬(i = a ∧ j = b)) : ent (set_entry m a b v) i j = ent m i j := by
  unfold ent
  rw [row_set_entry]
  split
  case isTrue hcase =>
    obtain ⟨rfl, halen⟩ := hcase
    have hjb : j ≠ b := fun hc => h ⟨rfl, hc⟩
    by_cases hj : j < (m.getD i []).length
    · rw [List.getD_eq_getElem _ _ (by rw [List.length_set]; exact hj),
        List.getD_eq_getElem _ _ hj, List.getElem_set_ne (fun hc => hjb hc.symm)]
    · rw [List.getD_eq_default _ _ (by rw [List.length_set]; omega),
        List.getD_eq_default _ _ (by omega)]
  case isFalse => rfl

theorem length_apply_assignment (a : List (ℕ × ℕ)) :
    ∀ m : List (List ℚ), (apply_assignment a m).length = m.length := by
  induction a with
  | nil => intro m; rfl
  | cons ij rest ih =>
      intro m
      show (apply_assignment rest (set_entry m ij.1 ij.2 1)).length = m.length
      rw [ih, length_set_entry]

theorem length_row_apply_assignment (a : List (ℕ × ℕ)) :
    ∀ (m : List (List ℚ)) (i : ℕ),
      ((apply_assignment a m).getD i []).length = (m.getD i []).length := by
  induction a with
  | nil => intro m i; rfl
  | cons ij rest ih =>
      intro m i
      show ((apply_assignment rest (set_entry m ij.1 ij.2 1)).getD i []).length = _
      rw [ih, length_row_set_entry]

theorem ent_apply_assignment (a : List (ℕ × ℕ)) :
    ∀ (m : List (List ℚ)),
      (∀ ij ∈ a, ij.1 < m.length ∧ ij.2 < (m.getD ij.1 []).length) →
      ∀ i j : ℕ, ent (apply_assignment a m) i j = if (i, j) ∈ a then 1 else ent m i j := by
  induction a with
  | nil => intro m _ i j; simp [apply_assignment]
  | cons ij rest ih =>
      intro m hin i j
      have hm : ij.1 < m.length ∧ ij.2 < (m.getD ij.1 []).length :=
        hin ij (List.mem_cons_self _ _)
      have hin2 : ∀ kl ∈ rest, kl.1 < (set_entry m ij.1 ij.2 1).length ∧
          kl.2 < ((set_entry m ij.1 ij.2 1).getD kl.1 []).length := by
        intro kl hkl
        have := hin kl (List.mem_cons_of_mem _ hkl)
        rwa [length_set_entry, length_row_set_entry]
      have step : apply_assignment (ij :: rest) m = apply_assignment rest (set_entry m ij.1 ij.2 1) := rfl
      rw [step, ih _ hin2 i j]
      by_cases hmem : (i, j) ∈ rest
      · rw [if_pos hmem, if_pos (List.mem_cons_of_mem _ hmem)]
      · rw [if_neg hmem]
        by_cases heq : (i, j) = ij
        · rw [if_pos (by rw [heq]; exact List.mem_cons_self _ _)]
          have : i = ij.1 ∧ j = ij.2 := by
            constructor <;> (rw [← heq])
          rcases this with ⟨rfl, rfl⟩
          exact ent_set_entry_self m 1 hm.1 hm.2
        · rw [if_neg (by simp [List.mem_cons, heq, hmem])]
          refine ent_set_entry_ne m 1 ?_
          intro hc
          exact heq (Prod.ext hc.1 hc.2)

theorem length_neg_mat (m : List (List ℚ)) : (neg_mat m).length = m.length :=
  List.length_map _ _

theorem headD_neg_mat (m : List (List ℚ)) :
    (neg_mat m).headD [] = (m.headD []).map (fun x => -x) := by
  cases m <;> rfl

theorem neg_mat_row (m : List (List ℚ)) (i : ℕ) :
    (neg_mat m).getD i [] = (m.getD i []).map (fun x => -x) := by
  by_cases h : i < m.length
  · exact getD_map_of_lt _ m [] h []
  · rw [List.getD_eq_default _ _ (by rw [length_neg_mat]; omega),
      List.getD_eq_default _ _ (by omega)]
    rfl

theorem ent_neg_mat (m : List (List ℚ)) (i j : ℕ) : ent (neg_mat m) i j = - ent m i j := by
  unfold ent
  rw [neg_mat_row]
  by_cases h : j < (m.getD i []).length
  · exact getD_map_of_lt _ _ 0 h 0
  · rw [List.getD_eq_default _ _ (by simp only [List.length_map]; omega),
      List.getD_eq_default _ _ (by omega)]
    norm_num

theorem getD_mem_of_lt {α : Type} (l : List α) (d : α) {i : ℕ} (h : i < l.length) :
    l.getD i d ∈ l := by
  rw [List.getD_eq_getElem _ _ h]
  exact List.getElem_mem _

theorem assignment_cost_neg (m : List (List ℚ)) (a : List (ℕ × ℕ)) :
    assignment_cost (neg_mat m) a = -(a.map (fun ij => ent m ij.1 ij.2)).sum := by
  unfold assignment_cost
  induction a with
  | nil => simp
  | cons ij rest ih =>
      rw [List.map_cons, List.sum_cons, List.map_cons, List.sum_cons, ih, ent_neg_mat]
      ring

theorem stp_getD (scores : List (List (List ℚ))) (i : ℕ) (hi : i < scores.length) :
    (scores_to_permutations scores).getD i [] =
      apply_assignment (linear_sum_assignment (neg_mat (scores.getD i [])))
        (zeros_like (scores.getD i [])) := by
  unfold scores_to_permutations
  exact getD_map_of_lt _ scores [] hi []

/-- Master specification of one solved sample: for an `r × c` score matrix with
`r ≤ c`, the solver chooses some permutation `p` of the columns; the output
matrix has a 1 exactly at the pairs `(i, p[i])` for `i < r`, and the chosen
column list minimizes the negated-score cost among all column permutations. -/
theorem sample_spec (r c : ℕ) (hrc : r ≤ c) (m : List (List ℚ))
    (hlen : m.length = r) (hrow : ∀ row ∈ m, row.length = c) :
    ∃ p : List ℕ, p.Perm (List.range c) ∧
      (∀ i j : ℕ,
        ent (apply_assignment (linear_sum_assignment (neg_mat m)) (zeros_like m)) i j =
          if (i, j) ∈ (List.range r).zip p then 1 else 0) ∧
      (∀ q : List ℕ, q.Perm (List.range c) →
        assignment_cost (neg_mat m) ((List.range r).zip p) ≤
        assignment_cost (neg_mat m) ((List.range r).zip q)) := by
  have hr : (neg_mat m).length = r := by rw [length_neg_mat, hlen]
  have hc : ((neg_mat m).headD []).length = c ∨ r = 0 := by
    cases m with
    | nil => right; rw [← hlen]; rfl
    | cons row rest =>
        left
        rw [headD_neg_mat]
        simp only [List.headD_cons, List.length_map]
        exact hrow row (List.mem_cons_self _ _)
  rcases linear_sum_assignment_spec (neg_mat m) with ⟨hmem, hopt⟩
  rcases hc with hc | hr0
  · rw [hr, hc] at hmem hopt
    rcases (mem_lsa_candidates_le hrc).mp hmem with ⟨p, hp, heq⟩
    refine ⟨p, hp, ?_, ?_⟩
    · intro i j
      have hin : ∀ ij ∈ (List.range r).zip p,
          ij.1 < (zeros_like m).length ∧ ij.2 < ((zeros_like m).getD ij.1 []).length := by
        intro ij hij
        have h1 : ij.1 < r := by
          have := List.of_mem_zip hij
          have h2 := this.1
          rwa [List.mem_range] at h2
        have h2 : ij.2 < c := by
          have := List.of_mem_zip hij
          have h3 := this.2
          have := (hp.mem_iff).mp h3
          rwa [List.mem_range] at this
        constructor
        · rw [length_zeros_like, hlen]; exact h1
        · rw [zeros_like_row, List.length_map]
          have : (m.getD ij.1 []).length = c := by
            apply hrow
            exact getD_mem_of_lt m [] (by rw [hlen]; exact h1)
          rw [this]; exact h2
      rw [heq] at *
      rw [ent_apply_assignment _ _ hin i j, ent_zeros_like]
    · intro q hq
      rw [← heq]
      apply hopt
      exact (mem_lsa_candidates_le hrc).mpr ⟨q, hq, rfl⟩
  · -- degenerate r = 0: the assignment is empty and every claim is trivial
    subst hr0
    have hm : m = [] := List.length_eq_zero.mp hlen
    subst hm
    have hc0 : ((neg_mat ([] : List (List ℚ))).headD []).length = 0 := rfl
    rw [hr, hc0] at hmem
    obtain ⟨p0, _, heq⟩ := (mem_lsa_candidates_le (le_refl 0)).mp hmem
    rw [List.range_zero, List.zip_nil_left] at heq
    refine ⟨List.range c, List.Perm.refl _, ?_, ?_⟩
    · intro i j
      simp only [List.range_zero, List.zip_nil_left, List.not_mem_nil, if_false]
      rw [heq]
      exact ent_zeros_like [] i j
    · intro q hq
      simp [List.range_zero]

/-- C1: for every batch of square `N × N` rational score matrices,
`scores_to_permutations` returns for each sample the 0/1 matrix of a
bijection `p` of `{0..N-1}` (entry `(i, j)` is 1 iff `j = p[i]`) whose total
collected score is maximal among all bijections; since the quantifier ranges
over every permutation, this in particular matches a brute-force search over
all `N!` permutations for any `N` (so certainly for `N ≤ 6`). -/
theorem C1_assignment_optimal (N : ℕ) (scores : List (List (List ℚ)))
    (hsq : ∀ m ∈ scores, m.length = N ∧ ∀ row ∈ m, row.length = N)
    (i : ℕ) (hi : i < scores.length) :
    ∃ p : List ℕ, p.Perm (List.range N) ∧
      (∀ r c : ℕ, r < N → c < N →
        ent ((scores_to_permutations scores).getD i []) r c =
          if p.getD r 0 = c then 1 else 0) ∧
      ∀ q : List ℕ, q.Perm (List.range N) →
        assign_total (scores.getD i []) q ≤ assign_total (scores.getD i []) p := by
  have hmem : scores.getD i [] ∈ scores := getD_mem_of_lt scores [] hi
  rcases hsq _ hmem with ⟨hlen, hrow⟩
  rcases sample_spec N N (le_refl N) _ hlen hrow with ⟨p, hp, hent, hopt⟩
  have hplen : p.length = N := by rw [hp.length_eq, List.length_range]
  refine ⟨p, hp, ?_, ?_⟩
  · intro r c hr hc
    rw [stp_getD scores i hi, hent r c]
    have hiff := mem_zip_range (r := N) (p := p) (by rw [hplen]) (i := r) (j := c)
    by_cases hcase : p.getD r 0 = c
    · rw [if_pos (hiff.mpr ⟨hr, hcase⟩), if_pos hcase]
    · rw [if_neg (fun hmm => hcase (hiff.mp hmm).2), if_neg hcase]
  · intro q hq
    have hqlen : q.length = N := by rw [hq.length_eq, List.length_range]
    have h0 := hopt q hq
    rw [assignment_cost_neg, assignment_cost_neg, neg_le_neg_iff] at h0
    unfold assign_total
    rw [hqlen, hplen]
    exact h0

/-- Closed witness for C1 at a concrete 2×2 batch. -/
theorem C1_assignment_optimal_witness :
    ∃ p : List ℕ, p.Perm (List.range 2) ∧
      (∀ r c : ℕ, r < 2 → c < 2 →
        ent ((scores_to_permutations [[[1, 2], [3, 4]]]).getD 0 []) r c =
          if p.getD r 0 = c then 1 else 0) ∧
      ∀ q : List ℕ, q.Perm (List.range 2) →
        assign_total ([[[(1 : ℚ), 2], [3, 4]]].getD 0 []) q ≤
        assign_total ([[[(1 : ℚ), 2], [3, 4]]].getD 0 []) p :=
  C1_assignment_optimal 2 [[[1, 2], [3, 4]]]
    (by intro m hm; rcases List.mem_singleton.mp hm with rfl; refine ⟨rfl, ?_⟩; decide)
    0 (by norm_num)

/-- C7: for every batch of square `N × N` score matrices, each per-sample
matrix returned by `scores_to_permutations` has exactly one 1 in every row,
exactly one 1 in every column, and every entry is 0 or 1: a total bijection
on the slot indices. -/
theorem C7_permutation_matrix (N : ℕ) (scores : List (List (List ℚ)))
    (hsq : ∀ m ∈ scores, m.length = N ∧ ∀ row ∈ m, row.length = N)
    (i : ℕ) (hi : i < scores.length) :
    (∀ r, r < N → ∃! c, c < N ∧ ent ((scores_to_permutations scores).getD i []) r c = 1) ∧
    (∀ c, c < N → ∃! r, r < N ∧ ent ((scores_to_permutations scores).getD i []) r c = 1) ∧
    (∀ r c, r < N → c < N →
      ent ((scores_to_permutations scores).getD i []) r c = 0 ∨
        ent ((scores_to_permutations scores).getD i []) r c = 1) := by
  have hmem : scores.getD i [] ∈ scores := getD_mem_of_lt scores [] hi
  rcases hsq _ hmem with ⟨hlen, hrow⟩
  rcases sample_spec N N (le_refl N) _ hlen hrow with ⟨p, hp, hent, _⟩
  have hplen : p.length = N := by rw [hp.length_eq, List.length_range]
  have entf : ∀ r c : ℕ, r < N → c < N →
      ent ((scores_to_permutations scores).getD i []) r c =
        if p.getD r 0 = c then 1 else 0 := by
    intro r c hr hc
    rw [stp_getD scores i hi, hent r c]
    have hiff := mem_zip_range (r := N) (p := p) (by rw [hplen]) (i := r) (j := c)
    by_cases hcase : p.getD r 0 = c
    · rw [if_pos (hiff.mpr ⟨hr, hcase⟩), if_pos hcase]
    · rw [if_neg (fun hmm => hcase (hiff.mp hmm).2), if_neg hcase]
  have hpnodup : p.Nodup := hp.nodup_iff.mpr (List.nodup_range N)
  refine ⟨?_, ?_, ?_⟩
  · intro r hr
    have hbound : p.getD r 0 < N := by
      have hmm : p.getD r 0 ∈ p := getD_mem_of_lt p 0 (by rw [hplen]; exact hr)
      have h2 := hp.subset hmm
      rwa [List.mem_range] at h2
    refine ⟨p.getD r 0, ⟨hbound, ?_⟩, ?_⟩
    · rw [entf r _ hr hbound, if_pos rfl]
    · rintro y ⟨hy, henty⟩
      rw [entf r y hr hy] at henty
      by_cases hcase : p.getD r 0 = y
      · exact hcase.symm
      · rw [if_neg hcase] at henty; norm_num at henty
  · intro c hc
    have hcp : c ∈ p := hp.mem_iff.mpr (List.mem_range.mpr hc)
    obtain ⟨k, hk, hkc⟩ := List.mem_iff_getElem.mp hcp
    have hkN : k < N := by rw [← hplen]; exact hk
    have hgetD : p.getD k 0 = c := by rw [List.getD_eq_getElem _ _ hk]; exact hkc
    refine ⟨k, ⟨hkN, ?_⟩, ?_⟩
    · rw [entf k c hkN hc, if_pos hgetD]
    · rintro y ⟨hy, henty⟩
      rw [entf y c hy hc] at henty
      by_cases hcase : p.getD y 0 = c
      · have hyp : y < p.length := by rw [hplen]; exact hy
        have h1 : p[y] = p[k] := by
          rw [← List.getD_eq_getElem p 0 hyp, ← List.getD_eq_getElem p 0 hk, hcase, hgetD]
        exact (hpnodup.getElem_inj_iff).mp h1
      · rw [if_neg hcase] at henty; norm_num at henty
  · intro r c hr hc
    rw [entf r c hr hc]
    by_cases hcase : p.getD r 0 = c
    · right; rw [if_pos hcase]
    · left; rw [if_neg hcase]

/-- Closed witness for C7 at a concrete 2×2 batch. -/
theorem C7_permutation_matrix_witness :
    (∀ r, r < 2 → ∃! c, c < 2 ∧
      ent ((scores_to_permutations [[[1, 2], [3, 4]]]).getD 0 []) r c = 1) ∧
    (∀ c, c < 2 → ∃! r, r < 2 ∧
      ent ((scores_to_permutations [[[1, 2], [3, 4]]]).getD 0 []) r c = 1) ∧
    (∀ r c, r < 2 → c < 2 →
      ent ((scores_to_permutations [[[1, 2], [3, 4]]]).getD 0 []) r c = 0 ∨
        ent ((scores_to_permutations [[[1, 2], [3, 4]]]).getD 0 []) r c = 1) :=
  C7_permutation_matrix 2 [[[1, 2], [3, 4]]]
    (by intro m hm; rcases List.mem_singleton.mp hm with rfl; refine ⟨rfl, ?_⟩; decide)
    0 (by norm_num)

/-- C6 counterexample: a non-square (1×2) score matrix is accepted and a
result is silently returned — the call does not fail.  (In the Python source
`B, N, N = scores.shape` is plain tuple unpacking, which checks nothing, and
scipy's `linear_sum_assignment` accepts rectangular matrices.)  The returned
sample is `[[0, 1]]`: row 0 was assigned to the higher-scoring column 1. -/
theorem C6_counterexample : scores_to_permutations [[[1, 2]]] = [[[0, 1]]] := by
  norm_num [scores_to_permutations, linear_sum_assignment, lsa_candidates,
    List.permutations', List.permutations'Aux, pick_min, assignment_cost, neg_mat, ent,
    zeros_like, apply_assignment, set_entry, List.range_succ, List.replicate_succ,
    List.set_cons_succ, List.set_cons_zero]

/-- C6 as amended: passing a non-square `r × c` score matrix (here `r ≤ c`)
is silently tolerated, not fatal: `scores_to_permutations` returns, for each
sample, a 0/1 matrix of the input shape holding an optimal assignment of the
smaller dimension — exactly one 1 in each of the `r` rows. -/
theorem C6_nonsquare_silently_tolerated (r c : ℕ) (hrc : r ≤ c)
    (scores : List (List (List ℚ)))
    (hsh : ∀ m ∈ scores, m.length = r ∧ ∀ row ∈ m, row.length = c)
    (i : ℕ) (hi : i < scores.length) :
    ((scores_to_permutations scores).getD i []).length = r ∧
    (∀ a, a < r → ∃! b, b < c ∧ ent ((scores_to_permutations scores).getD i []) a b = 1) ∧
    (∀ a b, a < r → b < c →
      ent ((scores_to_permutations scores).getD i []) a b = 0 ∨
        ent ((scores_to_permutations scores).getD i []) a b = 1) := by
  have hmem : scores.getD i [] ∈ scores := getD_mem_of_lt scores [] hi
  rcases hsh _ hmem with ⟨hlen, hrow⟩
  rcases sample_spec r c hrc _ hlen hrow with ⟨p, hp, hent, _⟩
  have hplen : p.length = c := by rw [hp.length_eq, List.length_range]
  have entf : ∀ a b : ℕ, a < r →
      ent ((scores_to_permutations scores).getD i []) a b =
        if p.getD a 0 = b then 1 else 0 := by
    intro a b ha
    rw [stp_getD scores i hi, hent a b]
    have hiff := mem_zip_range (r := r) (p := p) (by rw [hplen]; exact hrc) (i := a) (j := b)
    by_cases hcase : p.getD a 0 = b
    · rw [if_pos (hiff.mpr ⟨ha, hcase⟩), if_pos hcase]
    · rw [if_neg (fun hmm => hcase (hiff.mp hmm).2), if_neg hcase]
  refine ⟨?_, ?_, ?_⟩
  · rw [stp_getD scores i hi, length_apply_assignment, length_zeros_like, hlen]
  · intro a ha
    have hbound : p.getD a 0 < c := by
      have hmm : p.getD a 0 ∈ p := getD_mem_of_lt p 0 (by rw [hplen]; omega)
      have h2 := hp.subset hmm
      rwa [List.mem_range] at h2
    refine ⟨p.getD a 0, ⟨hbound, ?_⟩, ?_⟩
    · rw [entf a _ ha, if_pos rfl]
    · rintro y ⟨hy, henty⟩
      rw [entf a y ha] at henty
      by_cases hcase : p.getD a 0 = y
      · exact hcase.symm
      · rw [if_neg hcase] at henty; norm_num at henty
  · intro a b ha hb
    rw [entf a b ha]
    by_cases hcase : p.getD a 0 = b
    · right; rw [if_pos hcase]
    · left; rw [if_neg hcase]

/-- Closed witness for the amended C6 at the 1×2 input of the counterexample. -/
theorem C6_nonsquare_silently_tolerated_witness :
    ((scores_to_permutations [[[1, 2]]]).getD 0 []).length = 1 ∧
    (∀ a, a < 1 → ∃! b, b < 2 ∧ ent ((scores_to_permutations [[[1, 2]]]).getD 0 []) a b = 1) ∧
    (∀ a b, a < 1 → b < 2 →
      ent ((scores_to_permutations [[[1, 2]]]).getD 0 []) a b = 0 ∨
        ent ((scores_to_permutations [[[1, 2]]]).getD 0 []) a b = 1) :=
  C6_nonsquare_silently_tolerated 1 2 (by norm_num) [[[1, 2]]]
    (by intro m hm; rcases List.mem_singleton.mp hm with rfl; refine ⟨rfl, ?_⟩; decide)
    0 (by norm_num)

/-! ## Sequence Postprocessor: `postprocess` (src/utils.py lines 274-293)

The Python body is
  EOS_idxs = (batch_preds == tokenizer.EOS_code).float().argmax(dim=-1)
  invalid_idxs = ((EOS_idxs - 1) % 2 != 0).nonzero().view(-1)
  EOS_idxs[invalid_idxs] = 0
  for i, EOS_idx in enumerate(EOS_idxs.tolist()):
      if EOS_idx == 0: append None, None; continue
      coords = tokenizer.decode(batch_preds[i, :EOS_idx+1])
      confs = [round(batch_confs[j][i].item(), 3) for j in range(len(coords))]
-/

/-- `(seq == EOS).float().argmax()`: index of the first EOS token, or 0 when
the sequence contains none (argmax of an all-zero vector is 0). -/
def first_eos_idx (seq : List ℕ) (eos : ℕ) : ℕ := (seq.findIdx? (· = eos)).getD 0

/-- The sanity check `(EOS_idxs - 1) % 2 != 0` → set to 0; torch integers use
Python (floor) modulo, so `(0 - 1) % 2 = 1` and index 0 is itself reset. -/
def eos_validity_fix (idx : ℕ) : ℕ := if ((idx : ℤ) - 1) % 2 ≠ 0 then 0 else idx

/-- Modelled from the spec: `Tokenizer.decode` (tokenizer.py is not under
src/).  Spec 4.1: read tokens two at a time, stop at the first `EOS` or at
the sequence end, convert each bin index to the coordinate
`bin * (image_size / NUM_BINS)`. -/
def decode_pair_tokens (eos : ℕ) (q : ℚ) : List ℕ → List (ℚ × ℚ)
  | [] => []
  | [_] => []
  | a :: b :: rest =>
      if a = eos ∨ b = eos then []
      else ((a : ℚ) * q, (b : ℚ) * q) :: decode_pair_tokens eos q rest

/-- Modelled from the spec: `Tokenizer.decode` starts reading at index 1
(skipping `BOS`). -/
def tokenizer_decode (eos image_size num_bins : ℕ) (seq : List ℕ) : List (ℚ × ℚ) :=
  decode_pair_tokens eos ((image_size : ℚ) / (num_bins : ℚ)) (seq.drop 1)

/-- `round(x, 3)`: rounding to three decimals (Mathlib round stands in for
Python float rounding; the claims do not depend on the tie-breaking rule). -/
def round3 (x : ℚ) : ℚ := ((round (x * 1000) : ℤ) : ℚ) / 1000

/-- src/utils.py lines 274-293, `postprocess`: per-sample EOS detection and
parity sanity check; invalid samples yield `none` coordinates and `none`
confidences (a silent per-sample outcome — the embedding is total and has no
failure path), valid samples are decoded and paired with one rounded
confidence per decoded vertex. -/
def postprocess (batch_preds : List (List ℕ)) (batch_confs : List (List ℚ))
    (eos image_size num_bins : ℕ) :
    List (Option (List (ℚ × ℚ))) × List (Option (List ℚ)) :=
  let res := (List.range batch_preds.length).map (fun i =>
    let ei := eos_validity_fix (first_eos_idx (batch_preds.getD i []) eos)
    if ei = 0 then (none, none)
    else
      let coords := tokenizer_decode eos image_size num_bins
        ((batch_preds.getD i []).take (ei + 1))
      let confs := (List.range coords.length).map
        (fun j => round3 ((batch_confs.getD j []).getD i 0))
      (some coords, some confs))
  (res.map Prod.fst, res.map Prod.snd)

theorem getD_range_map {α : Type} (n : ℕ) (f : ℕ → α) (d : α) {i : ℕ} (h : i < n) :
    ((List.range n).map f).getD i d = f i := by
  rw [getD_map_of_lt f (List.range n) 0 (by rwa [List.length_range]) d,
    List.getD_eq_getElem _ _ (by rwa [List.length_range]), List.getElem_range]

theorem eos_validity_fix_eq_zero (k : ℕ) :
    eos_validity_fix k = 0 ↔ (k = 0 ∨ Even k) := by
  unfold eos_validity_fix
  rcases Nat.even_or_odd k with he | ho
  · have h2 : k % 2 = 0 := Nat.even_iff.mp he
    have hmod : ((k : ℤ) - 1) % 2 ≠ 0 := by omega
    rw [if_pos hmod]
    simp [he]
  · have h2 : k % 2 = 1 := Nat.odd_iff.mp ho
    have hmod : ¬ ((k : ℤ) - 1) % 2 ≠ 0 := by omega
    rw [if_neg hmod]
    constructor
    · intro h0; left; exact h0
    · rintro (h0 | h0)
      · exact h0
      · exact absurd (Nat.even_iff.mp h0) (by omega)

/-- C3: for every batch of generated token sequences, `postprocess` returns
`none` coordinates and `none` confidences exactly for the samples whose first
EOS index is 0 (in particular when no EOS occurs, which is encoded as index
0) or even; every other sample receives decoded coordinates (`some`) and a
confidence list (`some`).  The invalid outcome is a silent per-sample value,
not an exception: the embedded function is total. -/
theorem C3_postprocess_validity (batch_preds : List (List ℕ))
    (batch_confs : List (List ℚ)) (eos image_size num_bins : ℕ)
    (i : ℕ) (hi : i < batch_preds.length) :
    (((postprocess batch_preds batch_confs eos image_size num_bins).1.getD i none = none ∧
      (postprocess batch_preds batch_confs eos image_size num_bins).2.getD i none = none) ↔
      (first_eos_idx (batch_preds.getD i []) eos = 0 ∨
        Even (first_eos_idx (batch_preds.getD i []) eos))) ∧
    (¬ (first_eos_idx (batch_preds.getD i []) eos = 0 ∨
        Even (first_eos_idx (batch_preds.getD i []) eos)) →
      ∃ cs fs,
        (postprocess batch_preds batch_confs eos image_size num_bins).1.getD i none = some cs ∧
        (postprocess batch_preds batch_confs eos image_size num_bins).2.getD i none = some fs) := by
  unfold postprocess
  simp only [List.map_map]
  rw [getD_range_map _ _ _ hi, getD_range_map _ _ _ hi]
  simp only [Function.comp]
  rw [← eos_validity_fix_eq_zero]
  constructor
  · by_cases hz : eos_validity_fix (first_eos_idx (batch_preds.getD i []) eos) = 0
    · rw [if_pos hz]
      exact iff_of_true ⟨rfl, rfl⟩ hz
    · rw [if_neg hz]
      refine iff_of_false ?_ hz
      intro hc
      exact Option.some_ne_none _ hc.1
  · intro hz
    rw [if_neg hz]
    exact ⟨_, _, rfl, rfl⟩

/-- Closed witness for C3: a sequence with first EOS at (odd) index 3 is
valid and receives `some` coordinates and confidences. -/
theorem C3_postprocess_validity_witness :
    (((postprocess [[100, 3, 4, 99]] [[1/2]] 99 224 224).1.getD 0 none = none ∧
      (postprocess [[100, 3, 4, 99]] [[1/2]] 99 224 224).2.getD 0 none = none) ↔
      (first_eos_idx ([[100, 3, 4, 99]].getD 0 []) 99 = 0 ∨
        Even (first_eos_idx ([[100, 3, 4, 99]].getD 0 []) 99))) ∧
    (¬ (first_eos_idx ([[100, 3, 4, 99]].getD 0 []) 99 = 0 ∨
        Even (first_eos_idx ([[100, 3, 4, 99]].getD 0 []) 99)) →
      ∃ cs fs,
        (postprocess [[100, 3, 4, 99]] [[1/2]] 99 224 224).1.getD 0 none = some cs ∧
        (postprocess [[100, 3, 4, 99]] [[1/2]] 99 224 224).2.getD 0 none = some fs) :=
  C3_postprocess_validity [[100, 3, 4, 99]] [[1/2]] 99 224 224 0 (by norm_num)

/-! ## Autoregressive Decoder Driver: `test_generate` (src/utils.py lines 241-271)

Single-sample model of the greedy generation loop (`top_k = 0`, `top_p = 1`,
so the filtering line is the identity and sampling is argmax; the batch
dimension is dropped because samples are independent columns).  The external
predictor is abstracted by `step_dist`, the per-prefix post-filter softmax
distribution over the vocabulary. -/

/-- `torch.softmax(preds).sort(axis=-1, descending=True)[0][:, 0]`: the first
entry of the descending sort of the distribution. -/
def top_conf (dist : List ℚ) : ℚ := (List.insertionSort (· ≥ ·) dist).headD 0

/-- `softmax(preds).argmax(dim=-1)`: the first index attaining the maximum. -/
def argmax_tok (dist : List ℚ) : ℕ := (dist.findIdx? (fun x => top_conf dist ≤ x)).getD 0

/-- One iteration of the generation loop: query the predictor on the current
prefix, record the top-1 confidence when the step index is even, then append
the sampled token. -/
def test_generate_step (step_dist : List ℕ → List ℚ) (i : ℕ) (st : List ℕ × List ℚ) :
    List ℕ × List ℚ :=
  let dist := step_dist st.1
  (st.1 ++ [argmax_tok dist], if i % 2 = 0 then st.2 ++ [top_conf dist] else st.2)

/-- src/utils.py lines 241-271, `test_generate` (token/confidence part): run
`max_len` steps from the prefix `[BOS]`, collecting confidences. -/
def test_generate (step_dist : List ℕ → List ℚ) (bos : ℕ) (max_len : ℕ) :
    List ℕ × List ℚ :=
  (List.range max_len).foldl (fun st i => test_generate_step step_dist i st) ([bos], [])

/-- The token prefix after `i` generation steps. -/
def gen_prefix_tokens (step_dist : List ℕ → List ℚ) (bos : ℕ) : ℕ → List ℕ
  | 0 => [bos]
  | i + 1 =>
      gen_prefix_tokens step_dist bos i ++
        [argmax_tok (step_dist (gen_prefix_tokens step_dist bos i))]

theorem test_generate_closed_form (step_dist : List ℕ → List ℚ) (bos : ℕ) :
    ∀ n : ℕ, test_generate step_dist bos n =
      (gen_prefix_tokens step_dist bos n,
        (List.range ((n + 1) / 2)).map
          (fun k => top_conf (step_dist (gen_prefix_tokens step_dist bos (2 * k))))) := by
  intro n
  induction n with
  | zero => rfl
  | succ n ih =>
      unfold test_generate at *
      rw [List.range_succ, List.foldl_append, ih]
      simp only [List.foldl_cons, List.foldl_nil, test_generate_step]
      by_cases hpar : n % 2 = 0
      · obtain ⟨m, hm⟩ : ∃ m, n = 2 * m := ⟨n / 2, by omega⟩
        subst hm
        rw [if_pos hpar]
        refine Prod.ext rfl ?_
        show _ ++ _ = _
        have h1 : (2 * m + 1) / 2 = m := by omega
        have h2 : (2 * m + 1 + 1) / 2 = m + 1 := by omega
        rw [h1, h2, List.range_succ, List.map_append]
        rfl
      · rw [if_neg hpar]
        refine Prod.ext rfl ?_
        show _ = _
        have h1 : (n + 1) / 2 = (n + 1 + 1) / 2 := by omega
        rw [h1]

theorem top_conf_spec (dist : List ℚ) (hne : dist ≠ []) :
    top_conf dist ∈ dist ∧ ∀ x ∈ dist, x ≤ top_conf dist := by
  have hperm : (List.insertionSort (· ≥ ·) dist).Perm dist := List.perm_insertionSort _ _
  have hsorted : List.Sorted (· ≥ ·) (List.insertionSort (· ≥ ·) dist) :=
    List.sorted_insertionSort _ _
  cases hs : List.insertionSort (· ≥ ·) dist with
  | nil =>
      exfalso
      have := hperm.length_eq
      rw [hs] at this
      exact hne (List.length_eq_zero.mp this.symm)
  | cons a t =>
      rw [hs] at hperm hsorted
      have hhead : top_conf dist = a := by unfold top_conf; rw [hs]; rfl
      constructor
      · rw [hhead]
        exact hperm.subset (List.mem_cons_self _ _)
      · intro x hx
        rw [hhead]
        have hx2 : x ∈ a :: t := hperm.mem_iff.mpr hx
        rcases List.mem_cons.mp hx2 with rfl | hx3
        · exact le_refl x
        · exact List.rel_of_sorted_cons hsorted x hx3

/-- C9: during generation, `test_generate` records a confidence exactly at
the even step indices — after `max_len` steps the confidence list has exactly
`⌈max_len / 2⌉ = (max_len + 1) / 2` entries, and its `k`-th entry was taken
at step `2k` — and each recorded value is the top-1 (maximum) of that step's
post-filter softmax distribution. -/
theorem C9_confidence_capture (step_dist : List ℕ → List ℚ) (bos max_len : ℕ)
    (hne : ∀ pre, step_dist pre ≠ []) :
    (test_generate step_dist bos max_len).2.length = (max_len + 1) / 2 ∧
    ∀ k, k < (max_len + 1) / 2 →
      (test_generate step_dist bos max_len).2.getD k 0 ∈
          step_dist (gen_prefix_tokens step_dist bos (2 * k)) ∧
        ∀ x ∈ step_dist (gen_prefix_tokens step_dist bos (2 * k)),
          x ≤ (test_generate step_dist bos max_len).2.getD k 0 := by
  rw [test_generate_closed_form]
  refine ⟨by rw [List.length_map, List.length_range], ?_⟩
  intro k hk
  rw [getD_range_map _ _ _ hk]
  exact top_conf_spec _ (hne _)

/-- Closed witness for C9 with a constant 3-token distribution and 5 steps. -/
theorem C9_confidence_capture_witness :
    (test_generate (fun _ => [1/4, 1/2, 1/4]) 7 5).2.length = (5 + 1) / 2 ∧
    ∀ k, k < (5 + 1) / 2 →
      (test_generate (fun _ => [(1 : ℚ)/4, 1/2, 1/4]) 7 5).2.getD k 0 ∈
          [(1 : ℚ)/4, 1/2, 1/4] ∧
        ∀ x ∈ [(1 : ℚ)/4, 1/2, 1/4],
          x ≤ (test_generate (fun _ => [(1 : ℚ)/4, 1/2, 1/4]) 7 5).2.getD k 0 :=
  C9_confidence_capture (fun _ => [1/4, 1/2, 1/4]) 7 5
    (fun _ => by intro h; cases h)

/-! ## Final scoring (src/utils.py lines 264-269 and 231-236)

`perm_preds = model.scorenet1(feats) + torch.transpose(model.scorenet2(feats), 1, 2)`
-/

/-- Modelled from the spec: `scorenet1` / `scorenet2` (models.py is not under
src/) each map the final feature vector to one real per candidate vertex slot
(spec 6, `score_from_feature(feature) -> (proj_a, proj_b)`); as an `N × N`
tensor the per-slot vector `v` is broadcast along columns, row `i` being
constantly `v[i]`. -/
def scorenet_matrix (v : List ℚ) : List (List ℚ) :=
  v.map (fun x => v.map (fun _ => x))

/-- `torch.transpose(·, 1, 2)` on one square sample. -/
def mat_transpose (m : List (List ℚ)) : List (List ℚ) :=
  (List.range m.length).map (fun i => (List.range m.length).map (fun j => ent m j i))

/-- Elementwise tensor addition of two same-shape matrices. -/
def mat_add (a b : List (List ℚ)) : List (List ℚ) :=
  List.zipWith (fun ra rb => List.zipWith (fun x y => x + y) ra rb) a b

/-- The score matrix handed to the Assignment Solver, as built by the source
line: first projection plus transposed second projection. -/
def perm_scores (proj_a proj_b : List ℚ) : List (List ℚ) :=
  mat_add (scorenet_matrix proj_a) (mat_transpose (scorenet_matrix proj_b))

theorem ent_scorenet_matrix (v : List ℚ) {i j : ℕ} (hi : i < v.length) (hj : j < v.length) :
    ent (scorenet_matrix v) i j = v.getD i 0 := by
  unfold ent scorenet_matrix
  rw [getD_map_of_lt _ v 0 hi [], getD_map_of_lt _ v 0 hj 0]

theorem length_scorenet_matrix (v : List ℚ) : (scorenet_matrix v).length = v.length :=
  List.length_map _ _

theorem ent_mat_transpose (m : List (List ℚ)) {i j : ℕ}
    (hi : i < m.length) (hj : j < m.length) : ent (mat_transpose m) i j = ent m j i := by
  unfold ent mat_transpose
  rw [getD_range_map _ _ _ hi, getD_range_map _ _ _ hj]
  rfl

theorem getD_zipWith_add (ra rb : List ℚ) {j : ℕ} (h1 : j < ra.length) (h2 : j < rb.length) :
    (List.zipWith (fun x y => x + y) ra rb).getD j 0 = ra.getD j 0 + rb.getD j 0 := by
  rw [List.getD_eq_getElem _ _ (by rw [List.length_zipWith]; omega),
    List.getElem_zipWith, List.getD_eq_getElem _ _ h1, List.getD_eq_getElem _ _ h2]

theorem row_mat_add (a b : List (List ℚ)) {i : ℕ} (hia : i < a.length) (hib : i < b.length) :
    (mat_add a b).getD i [] =
      List.zipWith (fun x y => x + y) (a.getD i []) (b.getD i []) := by
  unfold mat_add
  rw [List.getD_eq_getElem _ _ (by rw [List.length_zipWith]; omega), List.getElem_zipWith,
    List.getD_eq_getElem _ _ hia, List.getD_eq_getElem _ _ hib]

theorem ent_mat_add (a b : List (List ℚ)) {i j : ℕ}
    (hia : i < a.length) (hib : i < b.length)
    (hja : j < (a.getD i []).length) (hjb : j < (b.getD i []).length) :
    ent (mat_add a b) i j = ent a i j + ent b i j := by
  unfold ent
  rw [row_mat_add a b hia hib, getD_zipWith_add _ _ hja hjb]

/-- C4: the score matrix handed to the Assignment Solver after the generation
loop is the outer sum of the two per-slot projection vectors:
`score[i][j] = proj_a[i] + proj_b[j]` for all candidate vertex slots. -/
theorem C4_outer_sum_scores (proj_a proj_b : List ℚ) (N : ℕ)
    (ha : proj_a.length = N) (hb : proj_b.length = N)
    (i j : ℕ) (hi : i < N) (hj : j < N) :
    ent (perm_scores proj_a proj_b) i j = proj_a.getD i 0 + proj_b.getD j 0 := by
  unfold perm_scores
  have hia : i < (scorenet_matrix proj_a).length := by
    rw [length_scorenet_matrix, ha]; exact hi
  have hib : i < (mat_transpose (scorenet_matrix proj_b)).length := by
    unfold mat_transpose
    rw [List.length_map, List.length_range, length_scorenet_matrix, hb]; exact hi
  have hrowa : (scorenet_matrix proj_a).getD i [] = proj_a.map (fun _ => proj_a.getD i 0) := by
    unfold scorenet_matrix
    rw [getD_map_of_lt _ proj_a 0 (by rw [ha]; exact hi) []]
  have hja : j < ((scorenet_matrix proj_a).getD i []).length := by
    rw [hrowa, List.length_map, ha]; exact hj
  have hrowb : (mat_transpose (scorenet_matrix proj_b)).getD i [] =
      (List.range (scorenet_matrix proj_b).length).map
        (fun k => ent (scorenet_matrix proj_b) k i) := by
    unfold mat_transpose
    exact getD_range_map _ _ _ (by rw [length_scorenet_matrix, hb]; exact hi)
  have hjb : j < ((mat_transpose (scorenet_matrix proj_b)).getD i []).length := by
    rw [hrowb, List.length_map, List.length_range, length_scorenet_matrix, hb]; exact hj
  rw [ent_mat_add _ _ hia hib hja hjb,
    ent_scorenet_matrix proj_a (by rw [ha]; exact hi) (by rw [ha]; exact hj),
    ent_mat_transpose _ (by rw [length_scorenet_matrix, hb]; exact hi)
      (by rw [length_scorenet_matrix, hb]; exact hj),
    ent_scorenet_matrix proj_b (by rw [hb]; exact hj) (by rw [hb]; exact hi)]

/-- Closed witness for C4 at concrete projection vectors. -/
theorem C4_outer_sum_scores_witness :
    ent (perm_scores [1, 2] [3, 4]) 0 1 = [(1 : ℚ), 2].getD 0 0 + [(3 : ℚ), 4].getD 1 0 :=
  C4_outer_sum_scores [1, 2] [3, 4] 2 rfl rfl 0 1 (by norm_num) (by norm_num)

/-! ## Polygon Assembler: `bubble_merge` (src/utils.py lines 116-132)

The Python body is
  def bubble_merge(poly):
      s = 0
      P = len(poly)
      while s < P:
          head = poly[s][-1]
          t = s+1
          while t < P:
              tail = poly[t][0]
              if head == tail:
                  poly[s] = poly[s] + poly[t][1:]
                  del poly[t]
                  poly = bubble_merge(poly)
                  P = len(poly)
              t += 1
          s += 1
      return poly

We embed it as a fuel-indexed interpreter over explicit control states: `run`
is entry into `bubble_merge`, `outer s` the outer `while` at index `s`,
`inner head s t` the inner `while` with the (possibly stale) `head` read at
entry of the outer iteration.  Fuel decreases at every call; `none` means
out of fuel, and `BMConverges` below is the big-step semantics of the
(always terminating) Python function. -/

/-- One merge: `poly[s] = poly[s] + poly[t][1:]` followed by `del poly[t]`. -/
def merge_at (s t : ℕ) (poly : List (List ℕ)) : List (List ℕ) :=
  (poly.set s (poly.getD s [] ++ (poly.getD t []).tail)).eraseIdx t

inductive BMState where
  | run (poly : List (List ℕ))
  | outer (s : ℕ) (poly : List (List ℕ))
  | inner (head s t : ℕ) (poly : List (List ℕ))

/-- Fuel-indexed interpreter of `bubble_merge`.  `poly[s][-1]` is
`getLastD 0` and `poly[t][0]` is `headD 0`; every chain in reachable states
is nonempty, so the defaults are never read. -/
def bubble_merge_run : ℕ → BMState → Option (List (List ℕ))
  | 0, _ => none
  | fuel + 1, .run poly => bubble_merge_run fuel (.outer 0 poly)
  | fuel + 1, .outer s poly =>
      if s < poly.length then
        bubble_merge_run fuel (.inner ((poly.getD s []).getLastD 0) s (s + 1) poly)
      else some poly
  | fuel + 1, .inner head s t poly =>
      if t < poly.length then
        if (poly.getD t []).headD 0 = head then
          match bubble_merge_run fuel (.run (merge_at s t poly)) with
          | none => none
          | some poly2 => bubble_merge_run fuel (.inner head s (t + 1) poly2)
        else bubble_merge_run fuel (.inner head s (t + 1) poly)
      else bubble_merge_run fuel (.outer (s + 1) poly)

/-- Big-step semantics of `bubble_merge`: the call from state `st` terminates
with result `r`. -/
def BMConverges (st : BMState) (r : List (List ℕ)) : Prop :=
  ∃ fuel, bubble_merge_run fuel st = some r

theorem bubble_merge_run_mono_succ :
    ∀ (fuel : ℕ) (st : BMState) (r : List (List ℕ)),
      bubble_merge_run fuel st = some r → bubble_merge_run (fuel + 1) st = some r := by
  intro fuel
  induction fuel with
  | zero => intro st r h; cases h
  | succ fuel ih =>
      intro st r h
      cases st with
      | run poly =>
          exact ih _ _ h
      | outer s poly =>
          rw [bubble_merge_run] at h ⊢
          split at h
          · rw [if_pos (by assumption)]
            exact ih _ _ h
          · rwa [if_neg (by assumption)]
      | inner head s t poly =>
          rw [bubble_merge_run] at h ⊢
          split at h
          · rw [if_pos (by assumption)]
            split at h
            · rw [if_pos (by assumption)]
              rcases hm : bubble_merge_run fuel (.run (merge_at s t poly)) with _ | poly2
              · rw [hm] at h; cases h
              · rw [hm] at h
                rw [ih _ _ hm]
                exact ih _ _ h
            · rw [if_neg (by assumption)]
              exact ih _ _ h
          · rw [if_neg (by assumption)]
            exact ih _ _ h

theorem bubble_merge_run_mono {fuel fuel' : ℕ} (hle : fuel ≤ fuel') {st : BMState}
    {r : List (List ℕ)} (h : bubble_merge_run fuel st = some r) :
    bubble_merge_run fuel' st = some r := by
  induction fuel' with
  | zero =>
      have : fuel = 0 := Nat.le_zero.mp hle
      subst this; exact h
  | succ fuel' ih =>
      rcases Nat.lt_or_ge fuel (fuel' + 1) with hlt | hge
      · exact bubble_merge_run_mono_succ fuel' st r (ih (by omega))
      · have : fuel = fuel' + 1 := le_antisymm hle hge
        subst this; exact h

theorem BMConverges_det {st : BMState} {r r' : List (List ℕ)}
    (h : BMConverges st r) (h2 : BMConverges st r') : r = r' := by
  rcases h with ⟨f1, h1⟩
  rcases h2 with ⟨f2, h2⟩
  have e1 := bubble_merge_run_mono (le_max_left f1 f2) h1
  have e2 := bubble_merge_run_mono (le_max_right f1 f2) h2
  rw [e1] at e2
  exact Option.some_inj.mp e2

/-! ### C2: merge of the five chains in every input order -/

/-- Boolean check used to settle C2 by computation: run the interpreter with
ample fuel and test that the result is two chains with vertex sets `{0,1,2}`
and `{3,4}`. -/
def c2_check (p : List (List ℕ)) : Bool :=
  match bubble_merge_run 1000 (.run p) with
  | none => false
  | some r =>
      decide (r.length = 2 ∧
        (r.map (fun c => c.toFinset)).toFinset = ({{0, 1, 2}, {3, 4}} : Finset (Finset ℕ)))

theorem c2_check_spec (p : List (List ℕ)) (hb : c2_check p = true) :
    ∃ r, BMConverges (.run p) r ∧ (∀ r', BMConverges (.run p) r' → r' = r) ∧
      r.length = 2 ∧
      (r.map (fun c => c.toFinset)).toFinset = ({{0, 1, 2}, {3, 4}} : Finset (Finset ℕ)) := by
  unfold c2_check at hb
  rcases hco : bubble_merge_run 1000 (.run p) with _ | r
  · rw [hco] at hb; cases hb
  · rw [hco] at hb
    have hprops := of_decide_eq_true hb
    exact ⟨r, ⟨1000, hco⟩, fun r' hr' => BMConverges_det hr' ⟨1000, hco⟩, hprops⟩

/-- C2: for every ordering (all 120 permutations) of the five chains
`[[0,1],[1,2],[2,0],[3,4],[4,3]]`, the merge step terminates in exactly two
chains whose vertex sets are `{0,1,2}` and `{3,4}`; the set of rings is the
same for every input order. -/
theorem C2_merge_order_independence :
    ∀ p ∈ ([[0, 1], [1, 2], [2, 0], [3, 4], [4, 3]] : List (List ℕ)).permutations',
      ∃ r, BMConverges (.run p) r ∧ (∀ r', BMConverges (.run p) r' → r' = r) ∧
        r.length = 2 ∧
        (r.map (fun c => c.toFinset)).toFinset = ({{0, 1, 2}, {3, 4}} : Finset (Finset ℕ)) := by
  have hall : (([[0, 1], [1, 2], [2, 0], [3, 4], [4, 3]] : List (List ℕ)).permutations').all
      c2_check = true := by decide
  intro p hp
  exact c2_check_spec p (List.all_eq_true.mp hall p hp)

/-- Closed witness for C2 at the identity ordering of the five chains. -/
theorem C2_merge_order_independence_witness :
    ∃ r, BMConverges (.run [[0, 1], [1, 2], [2, 0], [3, 4], [4, 3]]) r ∧
      (∀ r', BMConverges (.run [[0, 1], [1, 2], [2, 0], [3, 4], [4, 3]]) r' → r' = r) ∧
      r.length = 2 ∧
      (r.map (fun c => c.toFinset)).toFinset = ({{0, 1, 2}, {3, 4}} : Finset (Finset ℕ)) :=
  C2_merge_order_independence [[0, 1], [1, 2], [2, 0], [3, 4], [4, 3]]
    (List.mem_permutations'.mpr (List.Perm.refl _))

/-! ## Polygon Assembler: `permutations_to_polygons` (src/utils.py lines 112-183)

Per-sample body (`out='torch'`):
  diag = torch.logical_not(perm[:,range(N),range(N)])
  idx = torch.arange(N)[b_diag]
  if idx.shape[0] > 0:
      b_perm = b_perm[idx,:][:,idx]; b_graph = b_graph[idx,:]
      first = arange(K); second = argmax(b_perm, dim=1)
      polygons_idx = bubble_merge(cat((first, second)).tolist())
      batch_poly = [b_graph[p_idx,:] for p_idx in polygons_idx]
  else: batch.append([])
-/

/-- `torch.argmax` over one row: the first index attaining the maximum. -/
def row_argmax : List ℚ → ℕ
  | [] => 0
  | x :: rest => if ∀ y ∈ rest, y ≤ x then 0 else row_argmax rest + 1

/-- `torch.logical_not(perm[diag])` as an index filter: slot `i` is active
iff its diagonal entry is (float) zero. -/
def diag_active (perm : List (List ℚ)) : List ℕ :=
  (List.range perm.length).filter (fun i => ent perm i i = 0)

/-- `m[idx,:][:,idx]`: restriction of a matrix to the given rows/columns. -/
def submatrix (m : List (List ℚ)) (idx : List ℕ) : List (List ℚ) :=
  idx.map (fun i => idx.map (fun j => ent m i j))

/-- `graph[idx,:]`: the selected coordinate rows. -/
def graph_rows (graph : List (List ℚ)) (idx : List ℕ) : List (List ℚ) :=
  idx.map (fun i => graph.getD i [])

/-- `torch.cat((first, second), dim=1).tolist()`: the 2-element successor
chains `[i, argmax of row i]` over the restricted matrix. -/
def successor_chains (bperm : List (List ℚ)) : List (List ℕ) :=
  (List.range bperm.length).map (fun i => [i, row_argmax (bperm.getD i [])])

/-- src/utils.py lines 112-183, one sample of `permutations_to_polygons` with
`out='torch'`, as a big-step relation (it contains the `bubble_merge` call):
inactive slots are dropped, the remaining ones are relabelled `0..K-1`,
2-element successor chains are merged, and each merged index chain is mapped
through the restricted coordinate rows. -/
def permutations_to_polygons_sample (perm graph : List (List ℚ))
    (res : List (List (List ℚ))) : Prop :=
  let idx := diag_active perm
  if idx = [] then res = []
  else ∃ merged, BMConverges (.run (successor_chains (submatrix perm idx))) merged ∧
    res = merged.map (fun p_idx => p_idx.map (fun k => (graph_rows graph idx).getD k []))

/-- The whole batch loop: one result entry per sample. -/
def permutations_to_polygons (perm_batch graph_batch : List (List (List ℚ)))
    (res : List (List (List (List ℚ)))) : Prop :=
  res.length = perm_batch.length ∧
  ∀ b, b < perm_batch.length →
    permutations_to_polygons_sample (perm_batch.getD b []) (graph_batch.getD b [])
      (res.getD b [])

/-- C5: for a sample whose 4×4 permutation matrix encodes the cycle
`0 → 1 → 2 → 3 → 0` with no self-loops, the assembler yields exactly one
ring, visiting the vertices `[0, 1, 2, 3]` in cycle order (the starting
vertex is repeated at the end, closing the ring); and this is the only
possible outcome. -/
theorem C5_single_cycle_ring (graph : List (List ℚ)) :
    permutations_to_polygons_sample
      [[0, 1, 0, 0], [0, 0, 1, 0], [0, 0, 0, 1], [1, 0, 0, 0]] graph
      [[graph.getD 0 [], graph.getD 1 [], graph.getD 2 [], graph.getD 3 [],
        graph.getD 0 []]] ∧
    ∀ res, permutations_to_polygons_sample
        [[0, 1, 0, 0], [0, 0, 1, 0], [0, 0, 0, 1], [1, 0, 0, 0]] graph res →
      res = [[graph.getD 0 [], graph.getD 1 [], graph.getD 2 [], graph.getD 3 [],
        graph.getD 0 []]] := by
  have hidx : diag_active [[0, 1, 0, 0], [0, 0, 1, 0], [0, 0, 0, 1], [1, 0, 0, 0]] =
      [0, 1, 2, 3] := by decide
  have hchains : successor_chains (submatrix
      [[0, 1, 0, 0], [0, 0, 1, 0], [0, 0, 0, 1], [1, 0, 0, 0]] [0, 1, 2, 3]) =
      [[0, 1], [1, 2], [2, 3], [3, 0]] := by decide
  have hrun : bubble_merge_run 100 (.run [[0, 1], [1, 2], [2, 3], [3, 0]]) =
      some [[0, 1, 2, 3, 0]] := by decide
  have hconv : BMConverges (.run (successor_chains (submatrix
      [[0, 1, 0, 0], [0, 0, 1, 0], [0, 0, 0, 1], [1, 0, 0, 0]] [0, 1, 2, 3])))
      [[0, 1, 2, 3, 0]] := by
    rw [hchains]; exact ⟨100, hrun⟩
  constructor
  · unfold permutations_to_polygons_sample
    rw [hidx]
    rw [if_neg (by decide)]
    exact ⟨[[0, 1, 2, 3, 0]], hconv, rfl⟩
  · intro res hres
    unfold permutations_to_polygons_sample at hres
    rw [hidx, if_neg (by decide)] at hres
    rcases hres with ⟨merged, hconv2, hres⟩
    have : merged = [[0, 1, 2, 3, 0]] := BMConverges_det hconv2 hconv
    subst this
    exact hres

/-- Closed witness for C5 at a concrete coordinate list. -/
theorem C5_single_cycle_ring_witness :
    permutations_to_polygons_sample
      [[0, 1, 0, 0], [0, 0, 1, 0], [0, 0, 0, 1], [1, 0, 0, 0]]
      [[10, 11], [20, 21], [30, 31], [40, 41]]
      [[[10, 11], [20, 21], [30, 31], [40, 41], [10, 11]]] :=
  (C5_single_cycle_ring [[10, 11], [20, 21], [30, 31], [40, 41]]).1

/-! ### A fixpoint characterization of `bubble_merge`

`merge_fix` repeatedly performs the lexicographically first merge (the same
pair the nested loops find first); below we prove that under the invariant
`ChainsInv` — every chain nonempty, all chain heads distinct, which holds for
every successor-chain input — the interpreter converges exactly to
`merge_fix`.  The head condition is what makes the stale `head` variable of
the Python inner loop harmless: once a merge consumes the unique chain
starting with `head`, no later chain can start with it again. -/

/-- `poly[t][0]` with default. -/
def chead (c : List ℕ) : ℕ := c.headD 0

/-- `poly[s][-1]` with default. -/
def clast (c : List ℕ) : ℕ := c.getLastD 0

/-- First `u ≥ t` such that chain `u` starts with `h`. -/
def find_inner (poly : List (List ℕ)) (h t : ℕ) : Option ℕ :=
  if ht : t < poly.length then
    if chead (poly.getD t []) = h then some t
    else find_inner poly h (t + 1)
  else none
termination_by poly.length - t

/-- First pair `(s, u)` with `s ≥` the given start, `u > s`, and the last
element of chain `s` equal to the head of chain `u` — the first merge the
nested loops perform. -/
def find_outer (poly : List (List ℕ)) (s : ℕ) : Option (ℕ × ℕ) :=
  if hs : s < poly.length then
    match find_inner poly (clast (poly.getD s [])) (s + 1) with
    | some u => some (s, u)
    | none => find_outer poly (s + 1)
  else none
termination_by poly.length - s

def find_pair (poly : List (List ℕ)) : Option (ℕ × ℕ) := find_outer poly 0

def chain_size (poly : List (List ℕ)) : ℕ := (poly.map List.length).sum

/-- Iterate the first merge to a fixpoint.  (The guard is provably satisfied
whenever a pair is found with nonempty chains; it only serves termination.) -/
def merge_fix (poly : List (List ℕ)) : List (List ℕ) :=
  match find_pair poly with
  | none => poly
  | some (s, t) =>
      if hg : chain_size (merge_at s t poly) < chain_size poly then
        merge_fix (merge_at s t poly)
      else poly
termination_by chain_size poly

/-- Invariant: all chains nonempty and all chain heads distinct. -/
def ChainsInv (poly : List (List ℕ)) : Prop :=
  (∀ c ∈ poly, c ≠ []) ∧ (poly.map chead).Nodup

theorem find_inner_some {poly : List (List ℕ)} {h t u : ℕ}
    (hf : find_inner poly h t = some u) :
    t ≤ u ∧ u < poly.length ∧ chead (poly.getD u []) = h ∧
      ∀ v, t ≤ v → v < u → chead (poly.getD v []) ≠ h := by
  generalize hk : poly.length - t = k at *
  induction k generalizing t with
  | zero =>
      rw [find_inner, dif_neg (by omega)] at hf
      cases hf
  | succ k ih =>
      have ht : t < poly.length := by omega
      rw [find_inner, dif_pos ht] at hf
      by_cases hc : chead (poly.getD t []) = h
      · rw [if_pos hc] at hf
        cases hf
        exact ⟨le_refl _, ht, hc, fun v h1 h2 => absurd (lt_of_le_of_lt h1 h2) (lt_irrefl _)⟩
      · rw [if_neg hc] at hf
        rcases ih hf (by omega) with ⟨h1, h2, h3, h4⟩
        refine ⟨by omega, h2, h3, ?_⟩
        intro v hv1 hv2
        rcases Nat.eq_or_lt_of_le hv1 with rfl | hv1
        · exact hc
        · exact h4 v hv1 hv2

theorem find_inner_none {poly : List (List ℕ)} {h t : ℕ}
    (hf : find_inner poly h t = none) :
    ∀ v, t ≤ v → v < poly.length → chead (poly.getD v []) ≠ h := by
  generalize hk : poly.length - t = k at *
  induction k generalizing t with
  | zero =>
      intro v hv1 hv2
      omega
  | succ k ih =>
      have ht : t < poly.length := by omega
      rw [find_inner, dif_pos ht] at hf
      by_cases hc : chead (poly.getD t []) = h
      · rw [if_pos hc] at hf; cases hf
      · rw [if_neg hc] at hf
        intro v hv1 hv2
        rcases Nat.eq_or_lt_of_le hv1 with rfl | hv1
        · exact hc
        · exact ih hf (by omega) v hv1 hv2

theorem find_outer_some {poly : List (List ℕ)} {s s₀ t₀ : ℕ}
    (hf : find_outer poly s = some (s₀, t₀)) :
    s ≤ s₀ ∧ s₀ < t₀ ∧ t₀ < poly.length ∧
      chead (poly.getD t₀ []) = clast (poly.getD s₀ []) ∧
      find_inner poly (clast (poly.getD s₀ [])) (s₀ + 1) = some t₀ ∧
      ∀ v, s ≤ v → v < s₀ → find_inner poly (clast (poly.getD v [])) (v + 1) = none := by
  generalize hk : poly.length - s = k at *
  induction k generalizing s with
  | zero =>
      rw [find_outer, dif_neg (by omega)] at hf
      cases hf
  | succ k ih =>
      have hs : s < poly.length := by omega
      rw [find_outer, dif_pos hs] at hf
      rcases hfi : find_inner poly (clast (poly.getD s [])) (s + 1) with _ | u
      · rw [hfi] at hf
        rcases ih hf (by omega) with ⟨h1, h2, h3, h4, h5, h6⟩
        refine ⟨by omega, h2, h3, h4, h5, ?_⟩
        intro v hv1 hv2
        rcases Nat.eq_or_lt_of_le hv1 with rfl | hv1
        · exact hfi
        · exact h6 v hv1 hv2
      · rw [hfi] at hf
        cases hf
        rcases find_inner_some hfi with ⟨g1, g2, g3, _⟩
        exact ⟨le_refl _, by omega, g2, g3, hfi,
          fun v h1 h2 => absurd (lt_of_le_of_lt h1 h2) (lt_irrefl _)⟩

theorem find_outer_none {poly : List (List ℕ)} {s : ℕ}
    (hf : find_outer poly s = none) :
    ∀ v, s ≤ v → v < poly.length →
      find_inner poly (clast (poly.getD v [])) (v + 1) = none := by
  generalize hk : poly.length - s = k at *
  induction k generalizing s with
  | zero =>
      intro v hv1 hv2; omega
  | succ k ih =>
      have hs : s < poly.length := by omega
      rw [find_outer, dif_pos hs] at hf
      rcases hfi : find_inner poly (clast (poly.getD s [])) (s + 1) with _ | u
      · rw [hfi] at hf
        intro v hv1 hv2
        rcases Nat.eq_or_lt_of_le hv1 with rfl | hv1
        · exact hfi
        · exact ih hf (by omega) v hv1 hv2
      · rw [hfi] at hf; cases hf

theorem find_outer_none_of {poly : List (List ℕ)} {s : ℕ}
    (hall : ∀ v, s ≤ v → v < poly.length →
      find_inner poly (clast (poly.getD v [])) (v + 1) = none) :
    find_outer poly s = none := by
  generalize hk : poly.length - s = k at *
  induction k generalizing s with
  | zero => rw [find_outer, dif_neg (by omega)]
  | succ k ih =>
      have hs : s < poly.length := by omega
      rw [find_outer, dif_pos hs, hall s (le_refl s) hs]
      exact ih (fun v h1 h2 => hall v (by omega) h2) (by omega)

theorem find_outer_none_succ {poly : List (List ℕ)} {s : ℕ}
    (hf : find_outer poly s = none) : find_outer poly (s + 1) = none :=
  find_outer_none_of (fun v h1 h2 => find_outer_none hf v (by omega) h2)

/-! ### Elementary lemmas about `merge_at` -/

theorem map_eraseIdx {α β : Type} (f : α → β) :
    ∀ (l : List α) (k : ℕ), (l.eraseIdx k).map f = (l.map f).eraseIdx k
  | [], _ => rfl
  | _ :: _, 0 => rfl
  | a :: l, k + 1 => by
      simp only [List.eraseIdx, List.map_cons]
      rw [map_eraseIdx f l k]

theorem sum_set_nat (l : List ℕ) (x : ℕ) :
    ∀ k : ℕ, k < l.length → (l.set k x).sum + l.getD k 0 = l.sum + x := by
  induction l with
  | nil => intro k hk; cases hk
  | cons a rest ih =>
      intro k hk
      cases k with
      | zero =>
          simp only [List.set, List.sum_cons, List.getD_cons_zero]
          omega
      | succ k =>
          simp only [List.set, List.sum_cons, List.getD_cons_succ]
          have := ih k (by simpa using Nat.lt_of_succ_lt_succ hk)
          omega

theorem sum_eraseIdx_nat (l : List ℕ) :
    ∀ k : ℕ, k < l.length → (l.eraseIdx k).sum + l.getD k 0 = l.sum := by
  induction l with
  | nil => intro k hk; cases hk
  | cons a rest ih =>
      intro k hk
      cases k with
      | zero =>
          simp only [List.eraseIdx, List.sum_cons, List.getD_cons_zero]
          omega
      | succ k =>
          simp only [List.eraseIdx, List.sum_cons, List.getD_cons_succ]
          have := ih k (by simpa using Nat.lt_of_succ_lt_succ hk)
          omega

theorem set_getD_self {α : Type} (l : List α) (d : α) {s : ℕ} (hs : s < l.length) :
    l.set s (l.getD s d) = l := by
  rw [List.getD_eq_getElem _ _ hs]
  apply List.ext_getElem
  · rw [List.length_set]
  · intro j h1 h2
    rw [List.getElem_set]
    split
    · rename_i hsj
      subst hsj
      rfl
    · rfl

theorem mem_of_mem_set {α : Type} {l : List α} {s : ℕ} {v c : α}
    (hc : c ∈ l.set s v) : c = v ∨ c ∈ l := by
  rcases List.mem_iff_getElem.mp hc with ⟨k, hk, hkeq⟩
  have hk2 : k < l.length := by rwa [List.length_set] at hk
  rw [List.getElem_set] at hkeq
  split at hkeq
  · exact Or.inl hkeq.symm
  · exact Or.inr (hkeq ▸ List.getElem_mem hk2)

theorem length_merge_at {poly : List (List ℕ)} {s t : ℕ} (ht : t < poly.length) :
    (merge_at s t poly).length + 1 = poly.length := by
  unfold merge_at
  rw [List.length_eraseIdx_of_lt (by rw [List.length_set]; exact ht), List.length_set]
  omega

theorem getD_set_ne {α : Type} (l : List α) (d : α) {s t : ℕ} (v : α) (hst : s ≠ t) :
    (l.set s v).getD t d = l.getD t d := by
  by_cases ht : t < l.length
  · rw [List.getD_eq_getElem _ _ (by rwa [List.length_set]),
      List.getD_eq_getElem _ _ ht, List.getElem_set_ne hst]
  · rw [List.getD_eq_default _ _ (by rw [List.length_set]; omega),
      List.getD_eq_default _ _ (by omega)]

theorem chain_size_merge_at {poly : List (List ℕ)} {s t : ℕ} (hst : s ≠ t)
    (hs : s < poly.length) (ht : t < poly.length) (hne : poly.getD t [] ≠ []) :
    chain_size (merge_at s t poly) + 1 = chain_size poly := by
  unfold chain_size merge_at
  rw [map_eraseIdx, List.map_set]
  have h1 := sum_eraseIdx_nat ((poly.map List.length).set s
    (poly.getD s [] ++ (poly.getD t []).tail).length) t
    (by rw [List.length_set, List.length_map]; exact ht)
  have h2 := sum_set_nat (poly.map List.length)
    (poly.getD s [] ++ (poly.getD t []).tail).length s (by rw [List.length_map]; exact hs)
  have h3 : ((poly.map List.length).set s
      (poly.getD s [] ++ (poly.getD t []).tail).length).getD t 0 =
      (poly.getD t []).length := by
    rw [getD_set_ne _ _ _ hst]
    exact getD_map_of_lt _ poly [] ht 0
  have h4 : (poly.map List.length).getD s 0 = (poly.getD s []).length :=
    getD_map_of_lt _ poly [] hs 0
  have h5 : (poly.getD s [] ++ (poly.getD t []).tail).length =
      (poly.getD s []).length + (poly.getD t []).length - 1 := by
    rw [List.length_append, List.length_tail]
    have : 0 < (poly.getD t []).length := List.length_pos.mpr hne
    omega
  have h6 : 0 < (poly.getD t []).length := List.length_pos.mpr hne
  omega

theorem map_chead_merge_at {poly : List (List ℕ)} {s t : ℕ} (hs : s < poly.length)
    (hst : s ≠ t) (hsne : poly.getD s [] ≠ []) :
    (merge_at s t poly).map chead = (poly.map chead).eraseIdx t := by
  unfold merge_at
  rw [map_eraseIdx, List.map_set]
  have hh : chead (poly.getD s [] ++ (poly.getD t []).tail) = chead (poly.getD s []) := by
    cases hc : poly.getD s [] with
    | nil => exact absurd hc hsne
    | cons a l => rfl
  rw [hh]
  have hgd : chead (poly.getD s []) = (poly.map chead).getD s 0 :=
    (getD_map_of_lt chead poly [] hs 0).symm
  rw [hgd, set_getD_self _ _ (by rw [List.length_map]; exact hs)]

theorem merge_at_ne_nil {poly : List (List ℕ)} {s t : ℕ}
    (hall : ∀ c ∈ poly, c ≠ []) (hs : s < poly.length) :
    ∀ c ∈ merge_at s t poly, c ≠ [] := by
  intro c hc
  unfold merge_at at hc
  have hc2 : c ∈ poly.set s (poly.getD s [] ++ (poly.getD t []).tail) :=
    (List.eraseIdx_sublist _ t).mem hc
  rcases mem_of_mem_set hc2 with rfl | hc3
  · intro hnil
    rcases List.append_eq_nil.mp hnil with ⟨h1, _⟩
    exact hall _ (getD_mem_of_lt poly [] hs) h1
  · exact hall c hc3

theorem ChainsInv_merge_at {poly : List (List ℕ)} {s t : ℕ} (hinv : ChainsInv poly)
    (hs : s < poly.length) (hst : s ≠ t) : ChainsInv (merge_at s t poly) := by
  refine ⟨merge_at_ne_nil hinv.1 hs, ?_⟩
  rw [map_chead_merge_at hs hst (hinv.1 _ (getD_mem_of_lt poly [] hs))]
  exact hinv.2.sublist (List.eraseIdx_sublist _ t)

theorem nodup_not_mem_eraseIdx {α : Type} {l : List α} (hnd : l.Nodup) (d : α) {t : ℕ}
    (ht : t < l.length) : l.getD t d ∉ l.eraseIdx t := by
  intro hmem
  rcases List.mem_iff_getElem.mp hmem with ⟨k, hk, hkeq⟩
  rw [List.getD_eq_getElem _ _ ht] at hkeq
  rcases Nat.lt_or_ge k t with hkt | hkt
  · rw [List.getElem_eraseIdx_of_lt l t k hk hkt] at hkeq
    exact absurd (hnd.getElem_inj_iff.mp hkeq) (by omega)
  · rw [List.getElem_eraseIdx_of_ge l t k hk hkt] at hkeq
    exact absurd (hnd.getElem_inj_iff.mp hkeq) (by omega)

theorem chead_not_mem_merge_at {poly : List (List ℕ)} {s t : ℕ} (hinv : ChainsInv poly)
    (hs : s < poly.length) (ht : t < poly.length) (hst : s ≠ t) :
    chead (poly.getD t []) ∉ (merge_at s t poly).map chead := by
  rw [map_chead_merge_at hs hst (hinv.1 _ (getD_mem_of_lt poly [] hs))]
  have hgd : chead (poly.getD t []) = (poly.map chead).getD t 0 :=
    (getD_map_of_lt chead poly [] ht 0).symm
  rw [hgd]
  exact nodup_not_mem_eraseIdx hinv.2 0 (by rw [List.length_map]; exact ht)

/-! ### Composing big-step convergence through the loop structure -/

theorem conv_run_intro {poly r : List (List ℕ)}
    (h : BMConverges (.outer 0 poly) r) : BMConverges (.run poly) r := by
  rcases h with ⟨f, hf⟩
  exact ⟨f + 1, hf⟩

theorem conv_inner_of_no_match {poly : List (List ℕ)} {h s : ℕ} {r : List (List ℕ)}
    (hcont : BMConverges (.outer (s + 1) poly) r) :
    ∀ t, (∀ u, t ≤ u → u < poly.length → chead (poly.getD u []) ≠ h) →
      BMConverges (.inner h s t poly) r := by
  intro t
  generalize hk : poly.length - t = k
  induction k generalizing t with
  | zero =>
      intro _
      rcases hcont with ⟨f, hf⟩
      refine ⟨f + 1, ?_⟩
      simp only [bubble_merge_run]
      rw [if_neg (by omega)]
      exact hf
  | succ k ih =>
      intro hnm
      have ht : t < poly.length := by omega
      rcases ih (t + 1) (by omega) (fun u h1 h2 => hnm u (by omega) h2) with ⟨f, hf⟩
      refine ⟨f + 1, ?_⟩
      simp only [bubble_merge_run]
      rw [if_pos ht,
        if_neg (show ¬((poly.getD t []).headD 0 = h) from hnm t (le_refl t) ht)]
      exact hf

theorem conv_outer_of_none {poly : List (List ℕ)} :
    ∀ s, find_outer poly s = none → BMConverges (.outer s poly) poly := by
  intro s
  generalize hk : poly.length - s = k
  induction k generalizing s with
  | zero =>
      intro _
      refine ⟨1, ?_⟩
      simp only [bubble_merge_run]
      rw [if_neg (by omega)]
  | succ k ih =>
      intro hf
      have hs : s < poly.length := by omega
      rw [find_outer, dif_pos hs] at hf
      rcases hfi : find_inner poly (clast (poly.getD s [])) (s + 1) with _ | u
      · rw [hfi] at hf
        have hcont := ih (s + 1) (by omega) hf
        rcases conv_inner_of_no_match hcont (s + 1) (find_inner_none hfi) with ⟨f, hfin⟩
        refine ⟨f + 1, ?_⟩
        simp only [bubble_merge_run]
        rw [if_pos hs]
        exact hfin
      · rw [hfi] at hf; cases hf

theorem find_outer_none_any {R : List (List ℕ)} (h0 : find_outer R 0 = none) :
    ∀ m, find_outer R m = none := by
  intro m
  induction m with
  | zero => exact h0
  | succ m ih => exact find_outer_none_succ ih

theorem conv_inner_walk {poly : List (List ℕ)} {h s t₀ : ℕ} {R : List (List ℕ)}
    (hm : BMConverges (.run (merge_at s t₀ poly)) R)
    (hnm2 : ∀ u, u < R.length → chead (R.getD u []) ≠ h)
    (houter : BMConverges (.outer (s + 1) R) R) :
    ∀ t, find_inner poly h t = some t₀ → BMConverges (.inner h s t poly) R := by
  intro t
  generalize hk : poly.length - t = k
  induction k generalizing t with
  | zero =>
      intro hfi
      rw [find_inner, dif_neg (by omega)] at hfi
      cases hfi
  | succ k ih =>
      intro hfi
      have ht : t < poly.length := by omega
      rw [find_inner, dif_pos ht] at hfi
      by_cases hc : chead (poly.getD t []) = h
      · rw [if_pos hc] at hfi
        have ht0 : t = t₀ := Option.some_inj.mp hfi
        subst ht0
        rcases hm with ⟨f1, hf1⟩
        rcases conv_inner_of_no_match houter (t + 1)
          (fun u h1 h2 => hnm2 u h2) with ⟨f2, hf2⟩
        refine ⟨max f1 f2 + 1, ?_⟩
        simp only [bubble_merge_run]
        rw [if_pos ht, if_pos (show (poly.getD t []).headD 0 = h from hc),
          bubble_merge_run_mono (le_max_left f1 f2) hf1]
        exact bubble_merge_run_mono (le_max_right f1 f2) hf2
      · rw [if_neg hc] at hfi
        rcases ih (t + 1) (by omega) hfi with ⟨f, hf⟩
        refine ⟨f + 1, ?_⟩
        simp only [bubble_merge_run]
        rw [if_pos ht, if_neg (show ¬((poly.getD t []).headD 0 = h) from hc)]
        exact hf

theorem conv_outer_walk {poly : List (List ℕ)} {s₀ t₀ : ℕ} {R : List (List ℕ)}
    (hm : BMConverges (.run (merge_at s₀ t₀ poly)) R)
    (hnm2 : ∀ u, u < R.length → chead (R.getD u []) ≠ clast (poly.getD s₀ []))
    (hnp : find_outer R 0 = none) :
    ∀ s, find_outer poly s = some (s₀, t₀) → BMConverges (.outer s poly) R := by
  intro s
  generalize hk : poly.length - s = k
  induction k generalizing s with
  | zero =>
      intro hf
      rw [find_outer, dif_neg (by omega)] at hf
      cases hf
  | succ k ih =>
      intro hf
      have hs : s < poly.length := by omega
      rw [find_outer, dif_pos hs] at hf
      rcases hfi : find_inner poly (clast (poly.getD s [])) (s + 1) with _ | u
      · rw [hfi] at hf
        have hcont := ih (s + 1) (by omega) hf
        rcases conv_inner_of_no_match hcont (s + 1) (find_inner_none hfi) with ⟨f, hfin⟩
        refine ⟨f + 1, ?_⟩
        simp only [bubble_merge_run]
        rw [if_pos hs]
        exact hfin
      · rw [hfi] at hf
        have hpair : s = s₀ ∧ u = t₀ := by
          have := Option.some_inj.mp hf
          exact ⟨congrArg Prod.fst this, congrArg Prod.snd this⟩
        rcases hpair with ⟨rfl, rfl⟩
        have houter : BMConverges (.outer (s + 1) R) R :=
          conv_outer_of_none (s + 1) (find_outer_none_any hnp (s + 1))
        rcases conv_inner_walk hm hnm2 houter (s + 1) hfi with ⟨f, hfin⟩
        refine ⟨f + 1, ?_⟩
        simp only [bubble_merge_run]
        rw [if_pos hs]
        exact hfin

/-- Main equivalence: under `ChainsInv`, the interpreter for `bubble_merge`
converges to the fixpoint `merge_fix`, which satisfies the invariant, admits
no further merge, and only loses chain heads. -/
theorem conv_run_merge_fix :
    ∀ n poly, chain_size poly ≤ n → ChainsInv poly →
      BMConverges (.run poly) (merge_fix poly) ∧
      ChainsInv (merge_fix poly) ∧
      find_pair (merge_fix poly) = none ∧
      List.Sublist ((merge_fix poly).map chead) (poly.map chead) := by
  intro n
  induction n using Nat.strong_induction_on with
  | _ n ih =>
      intro poly hsz hinv
      rcases hfp : find_pair poly with _ | ⟨s₀, t₀⟩
      · have hmf : merge_fix poly = poly := by
          rw [merge_fix, hfp]
        rw [hmf]
        exact ⟨conv_run_intro (conv_outer_of_none 0 hfp), hinv, hfp, List.Sublist.refl _⟩
      · rcases find_outer_some hfp with ⟨_, hst, ht, hheads, hfi, _⟩
        have hs : s₀ < poly.length := lt_trans hst ht
        have hne_t : poly.getD t₀ [] ≠ [] := hinv.1 _ (getD_mem_of_lt poly [] ht)
        have hne_s : poly.getD s₀ [] ≠ [] := hinv.1 _ (getD_mem_of_lt poly [] hs)
        have hstne : s₀ ≠ t₀ := Nat.ne_of_lt hst
        have hsize := chain_size_merge_at hstne hs ht hne_t
        have hguard : chain_size (merge_at s₀ t₀ poly) < chain_size poly := by omega
        have hmf : merge_fix poly = merge_fix (merge_at s₀ t₀ poly) := by
          rw [merge_fix, hfp]
          exact dif_pos hguard
        have hinv_m : ChainsInv (merge_at s₀ t₀ poly) := ChainsInv_merge_at hinv hs hstne
        have hn : 0 < n := by
          have : 0 < chain_size poly := by omega
          omega
        rcases ih (n - 1) (by omega) (merge_at s₀ t₀ poly) (by omega) hinv_m with
          ⟨conv_m, inv_m, nopair_m, sub_m⟩
        have hmap := map_chead_merge_at hs hstne hne_s
        have hnm2 : ∀ u, u < (merge_fix (merge_at s₀ t₀ poly)).length →
            chead ((merge_fix (merge_at s₀ t₀ poly)).getD u []) ≠
              clast (poly.getD s₀ []) := by
          intro u hu heq
          have hmem : chead ((merge_fix (merge_at s₀ t₀ poly)).getD u []) ∈
              (merge_fix (merge_at s₀ t₀ poly)).map chead := by
            rw [← getD_map_of_lt chead _ [] hu 0]
            exact getD_mem_of_lt _ 0 (by rw [List.length_map]; exact hu)
          have hmem2 := sub_m.subset hmem
          rw [heq, ← hheads] at hmem2
          exact chead_not_mem_merge_at hinv hs ht hstne hmem2
        have hconv : BMConverges (.run poly) (merge_fix (merge_at s₀ t₀ poly)) :=
          conv_run_intro (conv_outer_walk conv_m hnm2 nopair_m 0 hfp)
        rw [hmf]
        refine ⟨hconv, inv_m, nopair_m, ?_⟩
        refine sub_m.trans ?_
        rw [hmap]
        exact List.eraseIdx_sublist _ t₀

/-! ### Invariants of the merged chains: interior vertices and successor paths

A chain `[v₀, …, v_m]` is a successor path when each step applies `σ`; its
interior is everything but the last element.  Merging two chains whose
junction matches preserves (a) all chains having length ≥ 2, (b) the path
property, and (c) the multiset of interior vertices. -/

/-- The interior (all but the last element) of one chain, as a multiset. -/
def dropLast_ms (c : List ℕ) : Multiset ℕ := ((c.dropLast : List ℕ) : Multiset ℕ)

def interiors (poly : List (List ℕ)) : Multiset ℕ := (poly.map dropLast_ms).sum

def chain_is_path (f : ℕ → ℕ) (c : List ℕ) : Prop :=
  ∀ n, n + 1 < c.length → c.getD (n + 1) 0 = f (c.getD n 0)

theorem le_msum_of_mem {α : Type} (f : α → Multiset ℕ) :
    ∀ (l : List α) (c : α), c ∈ l → f c ≤ (l.map f).sum := by
  intro l
  induction l with
  | nil => intro c hc; cases hc
  | cons a rest ih =>
      intro c hc
      rw [List.map_cons, List.sum_cons]
      rcases List.mem_cons.mp hc with rfl | hc
      · exact Multiset.le_add_right _ _
      · exact le_trans (ih c hc) (Multiset.le_add_left _ _)

theorem msum_set (l : List (Multiset ℕ)) (x : Multiset ℕ) :
    ∀ k : ℕ, k < l.length → (l.set k x).sum + l.getD k 0 = l.sum + x := by
  induction l with
  | nil => intro k hk; cases hk
  | cons a rest ih =>
      intro k hk
      cases k with
      | zero =>
          simp only [List.set, List.sum_cons, List.getD_cons_zero]
          abel
      | succ k =>
          simp only [List.set, List.sum_cons, List.getD_cons_succ]
          have hrec := ih k (by simpa using Nat.lt_of_succ_lt_succ hk)
          calc a + (rest.set k x).sum + rest.getD k 0
              = a + ((rest.set k x).sum + rest.getD k 0) := by abel
            _ = a + (rest.sum + x) := by rw [hrec]
            _ = a + rest.sum + x := by abel

theorem msum_eraseIdx (l : List (Multiset ℕ)) :
    ∀ k : ℕ, k < l.length → (l.eraseIdx k).sum + l.getD k 0 = l.sum := by
  induction l with
  | nil => intro k hk; cases hk
  | cons a rest ih =>
      intro k hk
      cases k with
      | zero =>
          simp only [List.eraseIdx, List.sum_cons, List.getD_cons_zero]
          abel
      | succ k =>
          simp only [List.eraseIdx, List.sum_cons, List.getD_cons_succ]
          have hrec := ih k (by simpa using Nat.lt_of_succ_lt_succ hk)
          calc a + (rest.eraseIdx k).sum + rest.getD k 0
              = a + ((rest.eraseIdx k).sum + rest.getD k 0) := by abel
            _ = a + rest.sum := by rw [hrec]

theorem chead_cons_tail {c : List ℕ} (h : c ≠ []) : chead c :: c.tail = c := by
  cases c with
  | nil => exact absurd rfl h
  | cons a l => rfl

theorem clast_eq_getD {c : List ℕ} (h : c ≠ []) : clast c = c.getD (c.length - 1) 0 := by
  unfold clast
  rw [List.getLastD_eq_getLast?, List.getLast?_eq_getLast c h, Option.getD_some,
    List.getLast_eq_getElem,
    List.getD_eq_getElem _ _ (by have := List.length_pos.mpr h; omega)]

theorem coe_decomp_dropLast {c : List ℕ} (h : c ≠ []) :
    ((c : List ℕ) : Multiset ℕ) = dropLast_ms c + ({clast c} : Multiset ℕ) := by
  unfold dropLast_ms
  conv_lhs => rw [← List.dropLast_concat_getLast h]
  rw [← Multiset.coe_add]
  congr 1
  unfold clast
  rw [List.getLastD_eq_getLast?, List.getLast?_eq_getLast c h, Option.getD_some]
  rfl

theorem getD_tail {c : List ℕ} (k : ℕ) : c.tail.getD k 0 = c.getD (k + 1) 0 := by
  cases c with
  | nil => rfl
  | cons a l => rfl

theorem interiors_merge_at {poly : List (List ℕ)} {s t : ℕ} (hst : s ≠ t)
    (hs : s < poly.length) (ht : t < poly.length)
    (hlen2 : ∀ c ∈ poly, 2 ≤ c.length)
    (hcond : chead (poly.getD t []) = clast (poly.getD s [])) :
    interiors (merge_at s t poly) = interiors poly := by
  have hne_s : poly.getD s [] ≠ [] := by
    intro hc
    have := hlen2 _ (getD_mem_of_lt poly [] hs)
    rw [hc] at this
    simp at this
  have htail_ne : (poly.getD t []).tail ≠ [] := by
    have h2 := hlen2 _ (getD_mem_of_lt poly [] ht)
    intro hc
    have hl := congrArg List.length hc
    rw [List.length_tail] at hl
    simp only [List.length_nil] at hl
    omega
  have hne_t : poly.getD t [] ≠ [] := by
    intro hc
    exact htail_ne (by rw [hc]; rfl)
  have key : interiors (merge_at s t poly) + dropLast_ms (poly.getD t [])
      + dropLast_ms (poly.getD s []) =
      interiors poly + dropLast_ms (poly.getD s [] ++ (poly.getD t []).tail) := by
    unfold interiors merge_at
    rw [map_eraseIdx, List.map_set]
    have e1 := msum_eraseIdx ((poly.map dropLast_ms).set s
        (dropLast_ms (poly.getD s [] ++ (poly.getD t []).tail))) t
      (by rw [List.length_set, List.length_map]; exact ht)
    have e2 : ((poly.map dropLast_ms).set s
        (dropLast_ms (poly.getD s [] ++ (poly.getD t []).tail))).getD t 0 =
        dropLast_ms (poly.getD t []) := by
      rw [getD_set_ne _ _ _ hst]
      exact getD_map_of_lt dropLast_ms poly [] ht 0
    have e3 := msum_set (poly.map dropLast_ms)
      (dropLast_ms (poly.getD s [] ++ (poly.getD t []).tail)) s
      (by rw [List.length_map]; exact hs)
    have e4 : (poly.map dropLast_ms).getD s 0 = dropLast_ms (poly.getD s []) :=
      getD_map_of_lt dropLast_ms poly [] hs 0
    rw [e2] at e1
    rw [e4] at e3
    calc (((poly.map dropLast_ms).set s
            (dropLast_ms (poly.getD s [] ++ (poly.getD t []).tail))).eraseIdx t).sum
          + dropLast_ms (poly.getD t []) + dropLast_ms (poly.getD s [])
        = ((poly.map dropLast_ms).set s
            (dropLast_ms (poly.getD s [] ++ (poly.getD t []).tail))).sum
          + dropLast_ms (poly.getD s []) := by rw [e1]
      _ = (poly.map dropLast_ms).sum
          + dropLast_ms (poly.getD s [] ++ (poly.getD t []).tail) := e3
  have hsplit : dropLast_ms (poly.getD s [] ++ (poly.getD t []).tail) =
      dropLast_ms (poly.getD s []) + dropLast_ms (poly.getD t []) := by
    unfold dropLast_ms
    rw [List.dropLast_append_of_ne_nil _ htail_ne, ← Multiset.coe_add]
    have hdt : (poly.getD t []).dropLast = chead (poly.getD t []) :: (poly.getD t []).tail.dropLast := by
      conv_lhs => rw [← chead_cons_tail hne_t]
      rw [List.dropLast_cons_of_ne_nil htail_ne]
    rw [hdt, hcond]
    have hds : ((poly.getD s [] : List ℕ) : Multiset ℕ) =
        ((poly.getD s []).dropLast : List ℕ) + ({clast (poly.getD s [])} : Multiset ℕ) :=
      coe_decomp_dropLast hne_s
    calc ((poly.getD s [] ++ (poly.getD t []).tail.dropLast : List ℕ) : Multiset ℕ)
        = ((poly.getD s [] : List ℕ) : Multiset ℕ)
          + ((poly.getD t []).tail.dropLast : List ℕ) := by rw [← Multiset.coe_add]
      _ = ((poly.getD s []).dropLast : List ℕ) + ({clast (poly.getD s [])} : Multiset ℕ)
          + ((poly.getD t []).tail.dropLast : List ℕ) := by rw [hds]
      _ = ((poly.getD s []).dropLast : List ℕ)
          + ((clast (poly.getD s []) :: (poly.getD t []).tail.dropLast : List ℕ) : Multiset ℕ) := by
            rw [← Multiset.cons_coe]
            abel_nf
            rw [Multiset.singleton_add]
  rw [hsplit] at key
  have key2 : interiors (merge_at s t poly)
      + (dropLast_ms (poly.getD t []) + dropLast_ms (poly.getD s [])) =
      interiors poly + (dropLast_ms (poly.getD t []) + dropLast_ms (poly.getD s [])) := by
    calc interiors (merge_at s t poly)
          + (dropLast_ms (poly.getD t []) + dropLast_ms (poly.getD s []))
        = interiors (merge_at s t poly) + dropLast_ms (poly.getD t [])
          + dropLast_ms (poly.getD s []) := by abel
      _ = interiors poly + (dropLast_ms (poly.getD s []) + dropLast_ms (poly.getD t [])) := key
      _ = interiors poly + (dropLast_ms (poly.getD t []) + dropLast_ms (poly.getD s [])) := by abel
  exact add_right_cancel key2

theorem len2_merge_at {poly : List (List ℕ)} {s t : ℕ}
    (hlen2 : ∀ c ∈ poly, 2 ≤ c.length) (hs : s < poly.length) :
    ∀ c ∈ merge_at s t poly, 2 ≤ c.length := by
  intro c hc
  have hc2 := (List.eraseIdx_sublist _ t).subset hc
  rcases mem_of_mem_set hc2 with rfl | hc3
  · rw [List.length_append]
    have := hlen2 _ (getD_mem_of_lt poly [] hs)
    omega
  · exact hlen2 c hc3

theorem chain_is_path_append {f : ℕ → ℕ} {c1 c2 : List ℕ}
    (h1 : chain_is_path f c1) (h2 : chain_is_path f c2)
    (hne1 : c1 ≠ []) (hlink : chead c2 = clast c1) :
    chain_is_path f (c1 ++ c2.tail) := by
  intro n hn
  rw [List.length_append] at hn
  have hm : 0 < c1.length := List.length_pos.mpr hne1
  rcases Nat.lt_or_ge (n + 1) c1.length with hlt | hge
  · rw [List.getD_append _ _ _ _ hlt, List.getD_append _ _ _ _ (by omega)]
    exact h1 n hlt
  rcases Nat.eq_or_lt_of_le hge with heq | hgt
  · rw [List.getD_append_right _ _ _ _ (by omega),
      List.getD_append _ _ _ _ (by omega : n < c1.length)]
    have hidx : n + 1 - c1.length = 0 := by omega
    rw [hidx, getD_tail]
    have hc2len : 2 ≤ c2.length := by
      have ht : 0 < c2.tail.length := by omega
      rw [List.length_tail] at ht
      omega
    have hstep := h2 0 (by omega)
    rw [hstep]
    congr 1
    have hc2ne : c2 ≠ [] := by
      intro hcc; rw [hcc] at hc2len; simp at hc2len
    have e1 : c2.getD 0 0 = chead c2 := by
      cases c2 with
      | nil => exact absurd rfl hc2ne
      | cons a l => rfl
    rw [e1, hlink, clast_eq_getD hne1]
    congr 1
    omega
  · rw [List.getD_append_right _ _ _ _ (by omega : c1.length ≤ n + 1),
      List.getD_append_right _ _ _ _ (by omega : c1.length ≤ n),
      getD_tail, getD_tail]
    have hidx : n + 1 - c1.length + 1 = (n - c1.length + 1) + 1 := by omega
    rw [hidx]
    have hb : (n - c1.length + 1) + 1 < c2.length := by
      have h3 : c2.tail.length = c2.length - 1 := List.length_tail _
      omega
    exact h2 (n - c1.length + 1) hb

theorem path_merge_at {f : ℕ → ℕ} {poly : List (List ℕ)} {s t : ℕ}
    (hpaths : ∀ c ∈ poly, chain_is_path f c)
    (hne : ∀ c ∈ poly, c ≠ []) (hs : s < poly.length) (ht : t < poly.length)
    (hcond : chead (poly.getD t []) = clast (poly.getD s [])) :
    ∀ c ∈ merge_at s t poly, chain_is_path f c := by
  intro c hc
  have hc2 := (List.eraseIdx_sublist _ t).subset hc
  rcases mem_of_mem_set hc2 with rfl | hc3
  · exact chain_is_path_append (hpaths _ (getD_mem_of_lt poly [] hs))
      (hpaths _ (getD_mem_of_lt poly [] ht))
      (hne _ (getD_mem_of_lt poly [] hs)) hcond
  · exact hpaths c hc3

/-- The three structural invariants survive the whole fixpoint iteration. -/
theorem merge_fix_invariants (f : ℕ → ℕ) :
    ∀ n poly, chain_size poly ≤ n →
      (∀ c ∈ poly, 2 ≤ c.length) → (∀ c ∈ poly, chain_is_path f c) →
      (∀ c ∈ merge_fix poly, 2 ≤ c.length) ∧
      (∀ c ∈ merge_fix poly, chain_is_path f c) ∧
      interiors (merge_fix poly) = interiors poly := by
  intro n
  induction n using Nat.strong_induction_on with
  | _ n ih =>
      intro poly hsz hlen2 hpaths
      rcases hfp : find_pair poly with _ | ⟨s₀, t₀⟩
      · have hmf : merge_fix poly = poly := by rw [merge_fix, hfp]
        rw [hmf]
        exact ⟨hlen2, hpaths, rfl⟩
      · rcases find_outer_some hfp with ⟨_, hst, ht, hheads, _, _⟩
        have hs : s₀ < poly.length := lt_trans hst ht
        have hstne : s₀ ≠ t₀ := Nat.ne_of_lt hst
        have hne : ∀ c ∈ poly, c ≠ [] := by
          intro c hc hcc
          have := hlen2 c hc
          rw [hcc] at this
          simp at this
        have hne_t : poly.getD t₀ [] ≠ [] := hne _ (getD_mem_of_lt poly [] ht)
        have hsize := chain_size_merge_at hstne hs ht hne_t
        have hguard : chain_size (merge_at s₀ t₀ poly) < chain_size poly := by omega
        have hmf : merge_fix poly = merge_fix (merge_at s₀ t₀ poly) := by
          rw [merge_fix, hfp]
          exact dif_pos hguard
        have hn : 0 < n := by
          have : 0 < chain_size poly := by omega
          omega
        rcases ih (n - 1) (by omega) (merge_at s₀ t₀ poly) (by omega)
          (len2_merge_at hlen2 hs) (path_merge_at hpaths hne hs ht hheads) with
          ⟨g1, g2, g3⟩
        rw [hmf]
        exact ⟨g1, g2, g3.trans (interiors_merge_at hstne hs ht hlen2 hheads)⟩

/-! ### Cycle structure of the fully merged chains -/

theorem mem_interiors {poly : List (List ℕ)} {x : ℕ} :
    x ∈ interiors poly ↔ ∃ c ∈ poly, x ∈ c.dropLast := by
  unfold interiors
  induction poly with
  | nil =>
      simp [dropLast_ms]
  | cons a rest ih =>
      rw [List.map_cons, List.sum_cons, Multiset.mem_add, ih]
      constructor
      · rintro (hx | ⟨c, hc, hxc⟩)
        · exact ⟨a, List.mem_cons_self _ _, Multiset.mem_coe.mp hx⟩
        · exact ⟨c, List.mem_cons_of_mem _ hc, hxc⟩
      · rintro ⟨c, hc, hxc⟩
        rcases List.mem_cons.mp hc with rfl | hc
        · exact Or.inl (Multiset.mem_coe.mpr hxc)
        · exact Or.inr ⟨c, hc, hxc⟩

theorem mem_interiors_idx {poly : List (List ℕ)} {x : ℕ} (hx : x ∈ interiors poly) :
    ∃ j, j < poly.length ∧ x ∈ (poly.getD j []).dropLast := by
  rcases mem_interiors.mp hx with ⟨c, hc, hxc⟩
  rcases List.mem_iff_getElem.mp hc with ⟨j, hj, rfl⟩
  exact ⟨j, hj, by rw [List.getD_eq_getElem _ _ hj]; exact hxc⟩

theorem pair_le_interiors_aux (l : List (List ℕ)) :
    ∀ i j : ℕ, i < j → j < l.length →
      dropLast_ms (l.getD i []) + dropLast_ms (l.getD j []) ≤ interiors l := by
  induction l with
  | nil => intro i j _ hj; cases hj
  | cons a rest ih =>
      intro i j hij hj
      unfold interiors
      rw [List.map_cons, List.sum_cons]
      cases i with
      | zero =>
          cases j with
          | zero => omega
          | succ j =>
              rw [List.getD_cons_zero, List.getD_cons_succ]
              have h1 : dropLast_ms (rest.getD j []) ≤ (rest.map dropLast_ms).sum :=
                le_msum_of_mem dropLast_ms rest _
                  (getD_mem_of_lt rest [] (by simpa using Nat.lt_of_succ_lt_succ hj))
              exact add_le_add_left h1 _
      | succ i =>
          cases j with
          | zero => omega
          | succ j =>
              rw [List.getD_cons_succ, List.getD_cons_succ]
              have h1 := ih i j (by omega) (by simpa using Nat.lt_of_succ_lt_succ hj)
              exact le_trans h1 (Multiset.le_add_left _ _)

theorem pair_le_interiors {l : List (List ℕ)} {i j : ℕ} (hij : i ≠ j)
    (hi : i < l.length) (hj : j < l.length) :
    dropLast_ms (l.getD i []) + dropLast_ms (l.getD j []) ≤ interiors l := by
  rcases Nat.lt_or_ge i j with h | h
  · exact pair_le_interiors_aux l i j h hj
  · have h2 : j < i := by omega
    have := pair_le_interiors_aux l j i h2 hi
    rwa [add_comm] at this

theorem interiors_disjoint {R : List (List ℕ)} {K : ℕ}
    (hint : interiors R = ((List.range K : List ℕ) : Multiset ℕ))
    {i j : ℕ} (hij : i ≠ j) (hi : i < R.length) (hj : j < R.length) {u : ℕ}
    (hu1 : u ∈ (R.getD i []).dropLast) (hu2 : u ∈ (R.getD j []).dropLast) : False := by
  have hnodup : (interiors R).Nodup := by
    rw [hint]
    exact Multiset.coe_nodup.mpr (List.nodup_range K)
  have hle := pair_le_interiors hij hi hj
  have hnd2 := Multiset.nodup_of_le hle hnodup
  rcases Multiset.nodup_add.mp hnd2 with ⟨_, _, hdisj⟩
  exact Multiset.disjoint_left.mp hdisj (Multiset.mem_coe.mpr hu1) (Multiset.mem_coe.mpr hu2)

theorem chain_interior_nodup {R : List (List ℕ)} {K : ℕ}
    (hint : interiors R = ((List.range K : List ℕ) : Multiset ℕ))
    {c : List ℕ} (hc : c ∈ R) : c.dropLast.Nodup := by
  have hnodup : (interiors R).Nodup := by
    rw [hint]
    exact Multiset.coe_nodup.mpr (List.nodup_range K)
  have hle := le_msum_of_mem dropLast_ms R c hc
  exact Multiset.coe_nodup.mp (Multiset.nodup_of_le hle hnodup)

theorem interior_mem_range {R : List (List ℕ)} {K : ℕ}
    (hint : interiors R = ((List.range K : List ℕ) : Multiset ℕ))
    {c : List ℕ} (hc : c ∈ R) {x : ℕ} (hx : x ∈ c.dropLast) : x < K := by
  have hmem : x ∈ interiors R := mem_interiors.mpr ⟨c, hc, hx⟩
  rw [hint] at hmem
  exact List.mem_range.mp (Multiset.mem_coe.mp hmem)

theorem chain_elems_lt {R : List (List ℕ)} {K : ℕ} {f : ℕ → ℕ}
    (hb : ∀ i, i < K → f i < K)
    (hlen2 : ∀ c ∈ R, 2 ≤ c.length)
    (hpaths : ∀ c ∈ R, chain_is_path f c)
    (hint : interiors R = ((List.range K : List ℕ) : Multiset ℕ)) :
    ∀ c ∈ R, ∀ x ∈ c, x < K := by
  intro c hc x hx
  rcases List.mem_iff_getElem.mp hx with ⟨k, hk, rfl⟩
  have h2 := hlen2 c hc
  rcases Nat.lt_or_ge k (c.length - 1) with hk1 | hk1
  · have hkd : k < c.dropLast.length := by rw [List.length_dropLast]; exact hk1
    have : c.dropLast[k] ∈ c.dropLast := List.getElem_mem hkd
    rw [List.getElem_dropLast] at this
    exact interior_mem_range hint hc this
  · have hkeq : k = c.length - 1 := by omega
    have hstep := hpaths c hc (k - 1) (by omega)
    have hidx : k - 1 + 1 = k := by omega
    rw [hidx] at hstep
    have hin : c.getD (k - 1) 0 ∈ c.dropLast := by
      have hkd : k - 1 < c.dropLast.length := by rw [List.length_dropLast]; omega
      rw [List.getD_eq_getElem _ _ (by omega : k - 1 < c.length)]
      have hmm : c.dropLast[k - 1] ∈ c.dropLast := List.getElem_mem hkd
      rwa [List.getElem_dropLast] at hmm
    have e2 : c.getD k 0 < K := by
      rw [hstep]
      exact hb _ (interior_mem_range hint hc hin)
    rwa [List.getD_eq_getElem _ _ hk] at e2

theorem no_pair_of_find_none {R : List (List ℕ)} (hnp : find_pair R = none) :
    ∀ a b, a < b → b < R.length → clast (R.getD a []) ≠ chead (R.getD b []) := by
  intro a b hab hb heq
  have ha : a < R.length := lt_trans hab hb
  have h1 := find_outer_none hnp a (Nat.zero_le a) ha
  exact find_inner_none h1 b (by omega) hb heq.symm

theorem chead_eq_getD {c : List ℕ} (h : c ≠ []) : chead c = c.getD 0 0 := by
  cases c with
  | nil => exact absurd rfl h
  | cons a l => rfl

theorem dropLast_getD_eq {c : List ℕ} {k : ℕ} (hk : k < c.length - 1) :
    c.dropLast.getD k 0 = c.getD k 0 := by
  have hkd : k < c.dropLast.length := by rw [List.length_dropLast]; exact hk
  rw [List.getD_eq_getElem _ _ hkd, List.getElem_dropLast,
    List.getD_eq_getElem _ _ (by omega : k < c.length)]

theorem interior_getD_mem {c : List ℕ} {k : ℕ} (hk : k < c.length - 1) :
    c.getD k 0 ∈ c.dropLast := by
  have hkd : k < c.dropLast.length := by rw [List.length_dropLast]; exact hk
  have hmm := List.getElem_mem hkd
  rw [List.getElem_dropLast] at hmm
  rwa [List.getD_eq_getElem _ _ (by omega : k < c.length)]

theorem nodup_getD_inj {l : List ℕ} (hnd : l.Nodup) {a b : ℕ} (ha : a < l.length)
    (hb2 : b < l.length) (heq : l.getD a 0 = l.getD b 0) : a = b := by
  rw [List.getD_eq_getElem _ _ ha, List.getD_eq_getElem _ _ hb2] at heq
  exact hnd.getElem_inj_iff.mp heq

/-- In a fully merged state (no pair left) whose chains are successor paths
partitioning `{0..K-1}` as interiors, every chain is closed: its last element
equals its first.  The earliest open chain would need an earlier chain
starting with its last vertex, which by induction is closed and then holds a
duplicated interior vertex. -/
theorem all_closed {R : List (List ℕ)} {K : ℕ} {f : ℕ → ℕ}
    (hb : ∀ i, i < K → f i < K)
    (hinj : ∀ i j, i < K → j < K → f i = f j → i = j)
    (hlen2 : ∀ c ∈ R, 2 ≤ c.length)
    (hpaths : ∀ c ∈ R, chain_is_path f c)
    (hint : interiors R = ((List.range K : List ℕ) : Multiset ℕ))
    (hnp : find_pair R = none) :
    ∀ j, j < R.length → clast (R.getD j []) = chead (R.getD j []) := by
  intro j
  induction j using Nat.strong_induction_on with
  | _ j ihj =>
      intro hjlen
      by_contra hopen
      have hcmem : R.getD j [] ∈ R := getD_mem_of_lt R [] hjlen
      have hlen_j : 2 ≤ (R.getD j []).length := hlen2 _ hcmem
      have hne_j : R.getD j [] ≠ [] := by
        intro hcc; rw [hcc] at hlen_j; simp at hlen_j
      have hstep := hpaths _ hcmem ((R.getD j []).length - 2) (by omega)
      have hidx : (R.getD j []).length - 2 + 1 = (R.getD j []).length - 1 := by omega
      rw [hidx] at hstep
      have hw : clast (R.getD j []) =
          f ((R.getD j []).getD ((R.getD j []).length - 2) 0) := by
        rw [clast_eq_getD hne_j]; exact hstep
      have hu_in : (R.getD j []).getD ((R.getD j []).length - 2) 0 ∈
          (R.getD j []).dropLast := interior_getD_mem (by omega)
      have hu_lt : (R.getD j []).getD ((R.getD j []).length - 2) 0 < K :=
        interior_mem_range hint hcmem hu_in
      have hw_lt : clast (R.getD j []) < K := by rw [hw]; exact hb _ hu_lt
      have hw_mem : clast (R.getD j []) ∈ interiors R := by
        rw [hint]
        exact Multiset.mem_coe.mpr (List.mem_range.mpr hw_lt)
      rcases mem_interiors_idx hw_mem with ⟨j2, hj2len, hw_in⟩
      have hc2mem : R.getD j2 [] ∈ R := getD_mem_of_lt R [] hj2len
      have hlen_j2 : 2 ≤ (R.getD j2 []).length := hlen2 _ hc2mem
      have hne_j2 : R.getD j2 [] ≠ [] := by
        intro hcc; rw [hcc] at hlen_j2; simp at hlen_j2
      rcases List.mem_iff_getElem.mp hw_in with ⟨p, hp, hpw⟩
      have hplen : p < (R.getD j2 []).length - 1 := by
        rw [List.length_dropLast] at hp; exact hp
      have hpgetD : (R.getD j2 []).getD p 0 = clast (R.getD j []) := by
        rw [← dropLast_getD_eq hplen, List.getD_eq_getElem _ _ hp]
        exact hpw
      cases Nat.eq_zero_or_pos p with
      | inl hp0 =>
          subst hp0
          have hhead : chead (R.getD j2 []) = clast (R.getD j []) := by
            rw [chead_eq_getD hne_j2]
            exact hpgetD
          by_cases hjj : j2 = j
          · subst hjj
            exact hopen hhead.symm
          · rcases Nat.lt_or_ge j j2 with hlt | hge
            · exact no_pair_of_find_none hnp j j2 hlt hj2len hhead.symm
            · have hlt2 : j2 < j := by omega
              have hclosed := ihj j2 hlt2 hj2len
              -- chain j2 is closed, so its last element is also w; its in-edge
              -- then duplicates the in-edge of w in chain j
              have hstep2 := hpaths _ hc2mem ((R.getD j2 []).length - 2) (by omega)
              have hidx2 : (R.getD j2 []).length - 2 + 1 = (R.getD j2 []).length - 1 := by
                omega
              rw [hidx2] at hstep2
              have hw2 : clast (R.getD j2 []) =
                  f ((R.getD j2 []).getD ((R.getD j2 []).length - 2) 0) := by
                rw [clast_eq_getD hne_j2]; exact hstep2
              have hu2_in : (R.getD j2 []).getD ((R.getD j2 []).length - 2) 0 ∈
                  (R.getD j2 []).dropLast := interior_getD_mem (by omega)
              have hu2_lt : (R.getD j2 []).getD ((R.getD j2 []).length - 2) 0 < K :=
                interior_mem_range hint hc2mem hu2_in
              have hfeq : f ((R.getD j2 []).getD ((R.getD j2 []).length - 2) 0) =
                  f ((R.getD j []).getD ((R.getD j []).length - 2) 0) := by
                rw [← hw2, hclosed, hhead, hw]
              have hueq := hinj _ _ hu2_lt hu_lt hfeq
              rw [hueq] at hu2_in
              exact interiors_disjoint hint hjj hj2len hjlen hu2_in hu_in
      | inr hppos =>
          have hstep2 := hpaths _ hc2mem (p - 1) (by omega)
          have hidx2 : p - 1 + 1 = p := by omega
          rw [hidx2] at hstep2
          have hfeq : f ((R.getD j2 []).getD (p - 1) 0) =
              f ((R.getD j []).getD ((R.getD j []).length - 2) 0) := by
            rw [← hstep2, hpgetD, hw]
          have hu2_in : (R.getD j2 []).getD (p - 1) 0 ∈ (R.getD j2 []).dropLast :=
            interior_getD_mem (by omega)
          have hu2_lt : (R.getD j2 []).getD (p - 1) 0 < K :=
            interior_mem_range hint hc2mem hu2_in
          have hueq := hinj _ _ hu2_lt hu_lt hfeq
          by_cases hjj : j2 = j
          · subst hjj
            have hnd := chain_interior_nodup hint hc2mem
            have hposeq : p - 1 = (R.getD j2 []).length - 2 := by
              apply nodup_getD_inj hnd
                (by rw [List.length_dropLast]; omega)
                (by rw [List.length_dropLast]; omega)
              rw [dropLast_getD_eq (by omega), dropLast_getD_eq (by omega)]
              rw [hueq]
            omega
          · rw [hueq] at hu2_in
            exact interiors_disjoint hint hjj hj2len hjlen hu2_in hu_in

/-- The ascending successor chains `[i, f i]` for `i = 0..K-1` — exactly what
`permutations_to_polygons` hands to `bubble_merge` when `f` is the per-row
argmax over the restricted matrix. -/
def perm_chains (f : ℕ → ℕ) (K : ℕ) : List (List ℕ) :=
  (List.range K).map (fun i => [i, f i])

theorem perm_chains_map_chead (f : ℕ → ℕ) :
    ∀ l : List ℕ, (l.map (fun i => [i, f i])).map chead = l := by
  intro l
  induction l with
  | nil => rfl
  | cons a rest ih =>
      simp only [List.map_cons]
      rw [ih]
      rfl

theorem perm_chains_inv (f : ℕ → ℕ) (K : ℕ) : ChainsInv (perm_chains f K) := by
  constructor
  · intro c hc
    rcases List.mem_map.mp hc with ⟨i, _, rfl⟩
    intro hcc
    cases hcc
  · unfold perm_chains
    rw [perm_chains_map_chead]
    exact List.nodup_range K

theorem perm_chains_len2 (f : ℕ → ℕ) (K : ℕ) :
    ∀ c ∈ perm_chains f K, 2 ≤ c.length := by
  intro c hc
  rcases List.mem_map.mp hc with ⟨i, _, rfl⟩
  rfl

theorem perm_chains_paths (f : ℕ → ℕ) (K : ℕ) :
    ∀ c ∈ perm_chains f K, chain_is_path f c := by
  intro c hc
  rcases List.mem_map.mp hc with ⟨i, _, rfl⟩
  intro n hn
  have hn2 : n = 0 := by
    have : ([i, f i] : List ℕ).length = 2 := rfl
    omega
  subst hn2
  rfl

theorem perm_chains_interiors (f : ℕ → ℕ) (K : ℕ) :
    interiors (perm_chains f K) = ((List.range K : List ℕ) : Multiset ℕ) := by
  suffices h : ∀ l : List ℕ,
      interiors (l.map (fun i => [i, f i])) = ((l : List ℕ) : Multiset ℕ) by
    exact h _
  intro l
  induction l with
  | nil => rfl
  | cons a rest ih =>
      unfold interiors at *
      rw [List.map_cons, List.map_cons, List.sum_cons, ih]
      have he : dropLast_ms [a, f a] = ({a} : Multiset ℕ) := rfl
      rw [he, ← Multiset.cons_coe, Multiset.singleton_add]

/-- C10: merging the ascending chains `[i, f i]` for a permutation `f` of
`{0..K-1}` converges, deterministically, to a list of chains in which every
chain is a closed successor cycle — at least two entries, the first entry
repeated as the last, consecutive entries related by `f`, and no interior
vertex repeated (so a `k`-cycle appears as `k + 1` indices) — and every
vertex of `{0..K-1}` lies in the interior of exactly one chain: one chain per
cycle of the permutation. -/
theorem C10_cycle_decomposition (K : ℕ) (f : ℕ → ℕ)
    (hb : ∀ i, i < K → f i < K)
    (hinj : ∀ i j, i < K → j < K → f i = f j → i = j) :
    ∃ R, BMConverges (.run (perm_chains f K)) R ∧
      (∀ Rp, BMConverges (.run (perm_chains f K)) Rp → Rp = R) ∧
      (∀ c ∈ R, 2 ≤ c.length ∧ chead c = clast c ∧
        (∀ n, n + 1 < c.length → c.getD (n + 1) 0 = f (c.getD n 0)) ∧
        c.dropLast.Nodup ∧ ∀ x ∈ c, x < K) ∧
      (∀ v, v < K → ∃! j, j < R.length ∧ v ∈ (R.getD j []).dropLast) := by
  rcases conv_run_merge_fix (chain_size (perm_chains f K)) (perm_chains f K)
    (le_refl _) (perm_chains_inv f K) with ⟨hconv, _, hnp, _⟩
  rcases merge_fix_invariants f (chain_size (perm_chains f K)) (perm_chains f K)
    (le_refl _) (perm_chains_len2 f K) (perm_chains_paths f K) with
    ⟨hlen2R, hpathsR, hintR⟩
  have hint : interiors (merge_fix (perm_chains f K)) =
      ((List.range K : List ℕ) : Multiset ℕ) :=
    hintR.trans (perm_chains_interiors f K)
  refine ⟨merge_fix (perm_chains f K), hconv, ?_, ?_, ?_⟩
  · intro Rp hRp
    exact BMConverges_det hRp hconv
  · intro c hc
    refine ⟨hlen2R c hc, ?_, hpathsR c hc, chain_interior_nodup hint hc,
      chain_elems_lt hb hlen2R hpathsR hint c hc⟩
    rcases List.mem_iff_getElem.mp hc with ⟨jj, hjj, rfl⟩
    have hcl := all_closed hb hinj hlen2R hpathsR hint hnp jj hjj
    rw [List.getD_eq_getElem _ _ hjj] at hcl
    exact hcl.symm
  · intro v hv
    have hv_mem : v ∈ interiors (merge_fix (perm_chains f K)) := by
      rw [hint]
      exact Multiset.mem_coe.mpr (List.mem_range.mpr hv)
    rcases mem_interiors_idx hv_mem with ⟨jj, h1, h2⟩
    refine ⟨jj, ⟨h1, h2⟩, ?_⟩
    rintro y ⟨hy1, hy2⟩
    by_contra hne
    exact interiors_disjoint hint hne hy1 h1 hy2 h2

/-- Closed witness for C10 at the 3-cycle `i ↦ (i + 1) % 3` on `{0, 1, 2}`. -/
theorem C10_cycle_decomposition_witness :
    ∃ R, BMConverges (.run (perm_chains (fun i => (i + 1) % 3) 3)) R ∧
      (∀ Rp, BMConverges (.run (perm_chains (fun i => (i + 1) % 3) 3)) Rp → Rp = R) ∧
      (∀ c ∈ R, 2 ≤ c.length ∧ chead c = clast c ∧
        (∀ n, n + 1 < c.length → c.getD (n + 1) 0 = (c.getD n 0 + 1) % 3) ∧
        c.dropLast.Nodup ∧ ∀ x ∈ c, x < 3) ∧
      (∀ v, v < 3 → ∃! j, j < R.length ∧ v ∈ (R.getD j []).dropLast) :=
  C10_cycle_decomposition 3 (fun i => (i + 1) % 3)
    (fun i hi => by show (i + 1) % 3 < 3; omega)
    (fun i j hi hj hf => by
      have hf2 : (i + 1) % 3 = (j + 1) % 3 := hf
      omega)

theorem row_argmax_lt : ∀ row : List ℚ, row ≠ [] → row_argmax row < row.length := by
  intro row
  induction row with
  | nil => intro h; exact absurd rfl h
  | cons x rest ih =>
      intro _
      unfold row_argmax
      split
      · simp
      · rename_i hnot
        have hrne : rest ≠ [] := by
          intro hr
          subst hr
          exact hnot (by intro y hy; cases hy)
        have := ih hrne
        simp only [List.length_cons]
        omega

theorem diag_active_empty {perm : List (List ℚ)}
    (hdiag : ∀ i, i < perm.length → ent perm i i = 1) : diag_active perm = [] := by
  unfold diag_active
  rw [List.filter_eq_nil_iff]
  intro a ha
  have halt := List.mem_range.mp ha
  simp only [decide_eq_true_eq]
  rw [hdiag a halt]
  norm_num

theorem successor_chains_eq_perm_chains (bperm : List (List ℚ)) :
    successor_chains bperm =
      perm_chains (fun i => row_argmax (bperm.getD i [])) bperm.length := rfl

/-- C8: (a) a sample whose permutation matrix has `perm[i][i] = 1` on every
slot produces the empty polygon list, with no error (the relation holds at
`[]`); (b) for any 0/1 diagonal, a slot `i` of the sample participates in
ring construction — appears, via the active-index relabelling, in some merged
chain — if and only if `perm[i][i] ≠ 1`. -/
theorem C8_inactive_slots (perm graph : List (List ℚ)) :
    ((∀ i, i < perm.length → ent perm i i = 1) →
      permutations_to_polygons_sample perm graph []) ∧
    ((∀ i, i < perm.length → ent perm i i = 0 ∨ ent perm i i = 1) →
      ∀ merged,
        BMConverges (.run (successor_chains (submatrix perm (diag_active perm)))) merged →
        ∀ i, i < perm.length →
          ((∃ r ∈ merged, ∃ k ∈ r, (diag_active perm).getD k 0 = i) ↔
            ent perm i i ≠ 1)) := by
  constructor
  · intro hdiag
    unfold permutations_to_polygons_sample
    rw [if_pos (diag_active_empty hdiag)]
  · intro hzeroone merged hconv i hi
    have hKlen : (submatrix perm (diag_active perm)).length = (diag_active perm).length :=
      List.length_map _ _
    set K := (diag_active perm).length with hK
    set s := fun k => row_argmax ((submatrix perm (diag_active perm)).getD k []) with hsfun
    have hchains : successor_chains (submatrix perm (diag_active perm)) = perm_chains s K := by
      rw [successor_chains_eq_perm_chains, hKlen]
    have hrowlen : ∀ k, k < K →
        ((submatrix perm (diag_active perm)).getD k []).length = K := by
      intro k hk
      unfold submatrix
      rw [getD_map_of_lt _ _ 0 hk [], List.length_map]
    have hbound : ∀ k, k < K → s k < K := by
      intro k hk
      have hne : (submatrix perm (diag_active perm)).getD k [] ≠ [] := by
        intro hcc
        have := hrowlen k hk
        rw [hcc] at this
        simp at this
        omega
      have := row_argmax_lt _ hne
      rw [hrowlen k hk] at this
      exact this
    rw [hchains] at hconv
    rcases conv_run_merge_fix (chain_size (perm_chains s K)) (perm_chains s K)
      (le_refl _) (perm_chains_inv s K) with ⟨hconv2, _, _, _⟩
    have hmerged : merged = merge_fix (perm_chains s K) := BMConverges_det hconv hconv2
    rcases merge_fix_invariants s (chain_size (perm_chains s K)) (perm_chains s K)
      (le_refl _) (perm_chains_len2 s K) (perm_chains_paths s K) with
      ⟨hlen2R, hpathsR, hintR⟩
    have hint : interiors (merge_fix (perm_chains s K)) =
        ((List.range K : List ℕ) : Multiset ℕ) :=
      hintR.trans (perm_chains_interiors s K)
    subst hmerged
    constructor
    · rintro ⟨r, hr, k, hk, hik⟩
      have hkK : k < K := chain_elems_lt hbound hlen2R hpathsR hint r hr k hk
      have hmem : (diag_active perm).getD k 0 ∈ diag_active perm :=
        getD_mem_of_lt _ 0 hkK
      rw [hik] at hmem
      unfold diag_active at hmem
      have := (List.mem_filter.mp hmem).2
      simp only [decide_eq_true_eq] at this
      rw [this]
      norm_num
    · intro hne1
      have hzero : ent perm i i = 0 := by
        rcases hzeroone i hi with h0 | h1
        · exact h0
        · exact absurd h1 hne1
      have hmem : i ∈ diag_active perm := by
        unfold diag_active
        rw [List.mem_filter]
        exact ⟨List.mem_range.mpr hi, by simp only [decide_eq_true_eq]; exact hzero⟩
      rcases List.mem_iff_getElem.mp hmem with ⟨k, hkK, hik⟩
      have hkK2 : k < K := by rw [hK]; exact hkK
      have hk_int : k ∈ interiors (merge_fix (perm_chains s K)) := by
        rw [hint]
        exact Multiset.mem_coe.mpr (List.mem_range.mpr hkK2)
      rcases mem_interiors.mp hk_int with ⟨r, hr, hkr⟩
      refine ⟨r, hr, k, ?_, ?_⟩
      · exact (List.dropLast_sublist r).subset hkr
      · rw [List.getD_eq_getElem _ _ hkK]
        exact hik

/-- Closed witness for C8: with every slot self-looped the sample yields the
empty polygon list. -/
theorem C8_inactive_slots_witness :
    permutations_to_polygons_sample [[1, 0], [0, 1]] [[5, 6], [7, 8]] [] :=
  (C8_inactive_slots [[1, 0], [0, 1]] [[5, 6], [7, 8]]).1 (by decide)

end Pix2Poly
